import Mathlib

/-!
Verification of the integer-set engine: a sparse chunked bitmap set
(package `bitset`, map-based, file `src/bitset/set.go`) and a dense growable
bitmap set (package `bitset`, slice-of-bools based).  Go's 64-bit signed
integers are embedded as `Int`; every arithmetic step of the source that can
overflow a 64-bit word is modelled with an explicit two's-complement wrap
(`wrap64`), and `uint64` values are embedded as `Nat` (words are kept below
`2 ^ 64` by the operations themselves, and conversions truncate explicitly).
Go's `map[key]uint64` is embedded as an association list whose key order
stands in for Go's unspecified iteration order; all extracted facts except
`Pop`'s choice of chunk are independent of that order, and `Pop` is only
evaluated on single-chunk maps, where the choice is forced.
-/

/-- Two's-complement wrap of an integer into `[-2^63, 2^63)`: the value a Go
`int` (64-bit) holds after an overflowing arithmetic step. -/
def wrap64 (z : Int) : Int := (z + 2 ^ 63) % 2 ^ 64 - 2 ^ 63

/-- The Go conversion `uint64(z)` of a 64-bit signed integer: reduction mod
`2 ^ 64` into `[0, 2^64)`. -/
def toUInt64Go (z : Int) : Nat := (z % 2 ^ 64).toNat

/-- The Go conversion `int(u)` of a `uint64`: values at or above `2 ^ 63`
re-enter as negatives. -/
def int_of_uint64 (u : Nat) : Int := if u < 2 ^ 63 then (u : Int) else (u : Int) - 2 ^ 64

/-- The range of a 64-bit Go `int`. -/
def intInRange (z : Int) : Prop := -(2 ^ 63) ≤ z ∧ z < 2 ^ 63

instance (z : Int) : Decidable (intInRange z) := by
  unfold intInRange; infer_instance

/-- The sentinel `ErrElementNotFound` shared by both representations. -/
inductive GoErr where
  | ElementNotFound
deriving DecidableEq

/-- Go `bits.TrailingZeros64`, fuelled structural recursion (64 steps suffice
for any `uint64`; the zero word yields 64, as in Go). -/
def tzLoop : Nat → Nat → Nat
  | 0, _ => 0
  | fuel + 1, u => if u % 2 = 1 then 0 else 1 + tzLoop fuel (u / 2)

def tz64 (u : Nat) : Nat := tzLoop 64 u

/-- Go `bits.OnesCount64`, fuelled structural recursion. -/
def ocLoop : Nat → Nat → Nat
  | 0, _ => 0
  | fuel + 1, u => u % 2 + ocLoop fuel (u / 2)

def onesCount64 (u : Nat) : Nat := ocLoop 64 u

namespace Sparse

/-- `key` of the sparse chunked set: sign and 64-wide chunk index. -/
structure key where
  is_positive : Bool
  multiplier : Nat
deriving DecidableEq

/-- The sparse chunked set: Go `map[key]uint64` as an association list. -/
structure Set where
  data : List (key × Nat)
deriving DecidableEq

/-- Lookup `m[k]` in the association-list embedding of the Go map. -/
def mapFind : List (key × Nat) → key → Option Nat
  | [], _ => none
  | (k0, v0) :: rest, k => if k0 = k then some v0 else mapFind rest k

/-- Store `m[k] = v` in the association-list embedding of the Go map. -/
def mapInsert : List (key × Nat) → key → Nat → List (key × Nat)
  | [], k, v => [(k, v)]
  | (k0, v0) :: rest, k, v =>
      if k0 = k then (k0, v) :: rest else (k0, v0) :: mapInsert rest k v

/-- Go `two_to_power_n_minus_1`: `1 << uint64(n)` on a `uint64`. -/
def two_to_power_n_minus_1 (n : Int) : Nat := (1 <<< n.toNat) % 2 ^ 64

/-- Go `number_to_bitset_representation`: sign, chunk index `abs(n)/64`, and
the slot word `1 << (abs(n) % 64)`.  The negation `-n` wraps at the minimum
`int`, exactly as in Go. -/
def number_to_bitset_representation (n : Int) : Bool × Nat × Nat :=
  if 0 ≤ n then
    let multiplier := toUInt64Go n / 64
    let slot : Nat := if n % 64 = 0 then 1 else two_to_power_n_minus_1 (n % 64)
    (true, multiplier, slot)
  else
    let m := wrap64 (-n)
    let multiplier := toUInt64Go m / 64
    let slot : Nat := if m % 64 = 0 then 1 else two_to_power_n_minus_1 (m % 64)
    (false, multiplier, slot)

/-- The loop body of Go `NewSet` (sparse): decompose one input value and OR
its slot into its chunk ("Union if it already exists, else just add it"). -/
def new_step (uset : List (key × Nat)) (v : Int) : List (key × Nat) :=
  let r := number_to_bitset_representation v
  let k : key := ⟨r.1, r.2.1⟩
  match mapFind uset k with
  | some bits => mapInsert uset k (bits ||| r.2.2)
  | none => mapInsert uset k r.2.2

/-- Go `NewSet` (sparse): fold the input, OR-ing each slot into its chunk. -/
def NewSet (data : List Int) : Set :=
  ⟨data.foldl new_step []⟩

/-- Go `Contains` (sparse). -/
def Contains (s : Set) (item : Int) : Bool :=
  if s.data.length = 0 then false
  else
    let r := number_to_bitset_representation item
    let k : key := ⟨r.1, r.2.1⟩
    match mapFind s.data k with
    | some bits => bits &&& r.2.2 != 0
    | none => false

/-- Go `Len` (sparse): sum of popcounts over all stored words. -/
def Len (s : Set) : Nat := s.data.foldl (fun res p => res + onesCount64 p.2) 0

/-- Go `IsEmpty` (sparse). -/
def IsEmpty (s : Set) : Bool := Len s == 0

/-- Go `Add` (sparse). -/
def Add (s : Set) (item : Int) : Set :=
  let r := number_to_bitset_representation item
  let k : key := ⟨r.1, r.2.1⟩
  match mapFind s.data k with
  | some bits => ⟨mapInsert s.data k (bits ||| r.2.2)⟩
  | none => ⟨mapInsert s.data k r.2.2⟩

/-- Go `Remove` (sparse): the pair is the updated receiver and the returned
error. -/
def Remove (s : Set) (item : Int) : Set × Option GoErr :=
  if s.data.length = 0 then (s, some GoErr.ElementNotFound)
  else
    let r := number_to_bitset_representation item
    let k : key := ⟨r.1, r.2.1⟩
    match mapFind s.data k with
    | none => (s, some GoErr.ElementNotFound)
    | some bits =>
      if bits &&& r.2.2 = 0 then (s, some GoErr.ElementNotFound)
      else (⟨mapInsert s.data k (bits ^^^ r.2.2)⟩, none)

/-- Go `Discard` (sparse): as in the source, when the chunk key exists the
slot is XOR-ed out without first checking that the bit is set. -/
def Discard (s : Set) (item : Int) : Set :=
  if s.data.length = 0 then s
  else
    let r := number_to_bitset_representation item
    let k : key := ⟨r.1, r.2.1⟩
    match mapFind s.data k with
    | none => s
    | some bits => ⟨mapInsert s.data k (bits ^^^ r.2.2)⟩

/-- Go `Pop` (sparse): triple of updated receiver, returned item and error.
As in the source, the returned item is `bits.TrailingZeros64` of the first
chunk's word, and that bit is cleared with `&= ^(1 << t)`. -/
def Pop (s : Set) : Set × Int × Option GoErr :=
  if IsEmpty s then (s, 0, some GoErr.ElementNotFound)
  else
    match s.data with
    | [] => (s, 0, some GoErr.ElementNotFound)
    | (k, slots) :: _ =>
      let to_return := tz64 slots
      (⟨mapInsert s.data k (slots &&& (2 ^ 64 - 1 - (1 <<< to_return) % 2 ^ 64))⟩,
        (to_return : Int), none)

/-- Go `slots_from_uint64` inner loop, fuelled (popcount of a `uint64` is at
most 64): extract trailing-zero indices, clearing each bit found. -/
def slots_loop : Nat → Nat → List Nat
  | 0, _ => []
  | fuel + 1, u =>
    if u = 0 then []
    else
      let idx := tz64 u
      idx :: slots_loop fuel (u &&& (2 ^ 64 - 1 - (1 <<< idx) % 2 ^ 64))

/-- Go `slots_from_uint64`: on the zero word it returns `[0]`. -/
def slots_from_uint64 (u : Nat) : List Nat :=
  if u = 0 then [0] else slots_loop 64 u

/-- The item the body of Go `Slice` computes for one set bit of one chunk:
`m := 64 * int(key.multiplier); val := m + v`, negated for negative chunks;
both the multiplication and the negation wrap as Go `int` operations. -/
def slice_item (k : key) (v : Nat) : Int :=
  let m := wrap64 (64 * int_of_uint64 k.multiplier)
  let val := wrap64 (m + (v : Int))
  if k.is_positive then val else wrap64 (-val)

/-- Go `Slice` (sparse). -/
def Slice (s : Set) : List Int :=
  s.data.flatMap (fun p => (slots_from_uint64 p.2).map (fun v => slice_item p.1 v))

/-- Go `Clear` (sparse). -/
def Clear (_ : Set) : Set := ⟨[]⟩

/-- Go `Copy` (sparse); in the pure embedding a deep copy is the value
itself. -/
def Copy (s : Set) : Set := ⟨s.data⟩

/-- Go `Equals` (sparse): map sizes, then `Len`, then both containment
loops. -/
def Equals (s t : Set) : Bool :=
  if s.data.length ≠ t.data.length then false
  else if Len s ≠ Len t then false
  else
    (s.data.all (fun p => match mapFind t.data p.1 with
      | none => false
      | some tbits => p.2 == tbits))
    && (t.data.all (fun p => (mapFind s.data p.1).isSome))

/-- One step of the loop of Go `Union`: fetch the key from the accumulated
result (if it exists) and OR the words, else store the word. -/
def union_step (acc : List (key × Nat)) (p : key × Nat) : List (key × Nat) :=
  match mapFind acc p.1 with
  | some w => mapInsert acc p.1 (w ||| p.2)
  | none => mapInsert acc p.1 p.2

/-- The loop of Go `Union` that folds the smaller map into a copy of the
larger one. -/
def union_fold (smaller result : List (key × Nat)) : List (key × Nat) :=
  smaller.foldl union_step result

/-- Go `Union` (sparse). -/
def Union (s t : Set) : Set :=
  if t.data.length < s.data.length then ⟨union_fold t.data (Copy s).data⟩
  else ⟨union_fold s.data (Copy t).data⟩

/-- One step of the loop of Go `Intersection`: keep the AND of the two
words only when it is non-zero. -/
def inter_step (other : List (key × Nat)) (acc : List (key × Nat)) (p : key × Nat) :
    List (key × Nat) :=
  match mapFind other p.1 with
  | some w2 => if p.2 &&& w2 ≠ 0 then mapInsert acc p.1 (p.2 &&& w2) else acc
  | none => acc

/-- The loop of Go `Intersection`: iterate one map, AND against the other,
keep only non-zero results. -/
def inter_fold (other m : List (key × Nat)) : List (key × Nat) :=
  m.foldl (inter_step other) []

/-- Go `Intersection` (sparse): iterates the smaller of the two maps. -/
def Intersection (s t : Set) : Set :=
  if s.data.length < t.data.length then ⟨inter_fold t.data s.data⟩
  else ⟨inter_fold s.data t.data⟩

end Sparse

namespace Dense

/-- The dense bitmap set: a boolean slice spanning `[min, max]`, the integer
at slice index 0, and the running element count. -/
structure Set where
  bits : List Bool
  smallest_item : Int
  n_items : Int
deriving DecidableEq

/-- Go `Len` (dense). -/
def Len (s : Set) : Int := s.n_items

/-- Go `IsEmpty` (dense). -/
def IsEmpty (s : Set) : Bool := Len s == 0

/-- Go `get_upper_value` (dense). -/
def get_upper_value (s : Set) : Int := s.smallest_item + s.bits.length - 1

/-- Go `under_lower_bound` (dense). -/
def under_lower_bound (s : Set) (item : Int) : Bool := item < s.smallest_item

/-- Go `over_upper_bound` (dense). -/
def over_upper_bound (s : Set) (item : Int) : Bool := get_upper_value s < item

/-- Go `calc_idx_of_item` (dense). -/
def calc_idx_of_item (s : Set) (item : Int) : Int := item - s.smallest_item

/-- Go `Contains` (dense).  The guards ensure the index is in bounds, so the
defaulted lookup coincides with Go's slice indexing. -/
def Contains (s : Set) (item : Int) : Bool :=
  if IsEmpty s then false
  else if under_lower_bound s item then false
  else if over_upper_bound s item then false
  else s.bits.getD (calc_idx_of_item s item).toNat false

/-- Go `abs` (dense file): the negation of the minimum `int` wraps. -/
def absGo (x : Int) : Int := if x < 0 then wrap64 (-x) else x

/-- One write `bits[v-min] = true` of the construction loop of Go `NewSet`
(dense).  The index expression wraps as a Go `int` subtraction; an index
outside the slice is a Go runtime panic, embedded as `none`. -/
def write_bits : List Bool → Int → List Int → Option (List Bool)
  | bs, _, [] => some bs
  | bs, mn, v :: rest =>
      let idx := wrap64 (v - mn)
      if 0 ≤ idx ∧ idx.toNat < bs.length then
        write_bits (bs.set idx.toNat true) mn rest
      else none

/-- The `min` accumulation loop of Go `NewSet` (dense), seeded with
`data[0]`. -/
def listMinGo (d0 : Int) (data : List Int) : Int :=
  data.foldl (fun a v => if v < a then v else a) d0

/-- The `max` accumulation loop of Go `NewSet` (dense), seeded with
`data[0]`. -/
def listMaxGo (d0 : Int) (data : List Int) : Int :=
  data.foldl (fun a v => if a < v then v else a) d0

/-- Go `NewSet` (dense).  `none` embeds a runtime panic: a negative slice
length passed to `make`, or an out-of-range index in the write loop (both
reachable only when `max - min` overflows the 64-bit `int`). -/
def NewSet (data : List Int) : Option Set :=
  match data with
  | [] => some ⟨[], 0, 0⟩
  | d0 :: _ =>
    let min := listMinGo d0 data
    let max := listMaxGo d0 data
    let n_uniq := data.dedup.length
    let min_max_range := if max = min then 1 else wrap64 (absGo (wrap64 (max - min)) + 1)
    if 0 ≤ min_max_range then
      match write_bits (List.replicate min_max_range.toNat false) min data with
      | some bs => some ⟨bs, min, (n_uniq : Int)⟩
      | none => none
    else none

/-- Go `Slice` (dense): indices of true bits, shifted by `smallest_item`. -/
def Slice (s : Set) : List Int :=
  ((List.range s.bits.length).filter (fun i => s.bits.getD i false)).map
    (fun (i : Nat) => (i : Int) + s.smallest_item)

/-- Go `Add` (dense).  The interior branch's index is always in bounds (the
two guard branches handle everything outside `[smallest, upper]`), so
`List.set` coincides with Go's slice write. -/
def Add (s : Set) (item : Int) : Set :=
  if item < s.smallest_item then
    let new_items := s.smallest_item - item
    let to_add_to_front := (List.replicate new_items.toNat false).set 0 true
    ⟨to_add_to_front ++ s.bits, item, s.n_items + 1⟩
  else if over_upper_bound s item then
    let new_items := item - get_upper_value s
    let to_append := (List.replicate new_items.toNat false).set (new_items.toNat - 1) true
    ⟨s.bits ++ to_append, s.smallest_item, s.n_items + 1⟩
  else
    let n := if Contains s item then s.n_items else s.n_items + 1
    ⟨s.bits.set (calc_idx_of_item s item).toNat true, s.smallest_item, n⟩

/-- The backward scan of Go `Remove`/`Discard` (dense): index of the last
true bit, if any. -/
def find_last_true (l : List Bool) : Option Nat :=
  match l.reverse.findIdx? (fun v => v) with
  | some k => some (l.length - 1 - k)
  | none => none

/-- Go `Remove` (dense): the pair is the updated receiver and the returned
error.  After clearing the bit, removing the minimum re-slices from the next
true bit (if there is none, the slice is left as it is), and removing the
maximum trims after the last true bit. -/
def Remove (s : Set) (item : Int) : Set × Option GoErr :=
  if Contains s item = false then (s, some GoErr.ElementNotFound)
  else
    let bits1 := s.bits.set (calc_idx_of_item s item).toNat false
    let n1 := s.n_items - 1
    if item = s.smallest_item then
      match bits1.findIdx? (fun v => v) with
      | some idx => (⟨bits1.drop idx, item + (idx : Int), n1⟩, none)
      | none => (⟨bits1, s.smallest_item, n1⟩, none)
    else if item = get_upper_value s then
      match find_last_true bits1 with
      | some idx => (⟨bits1.take (idx + 1), s.smallest_item, n1⟩, none)
      | none => (⟨bits1, s.smallest_item, n1⟩, none)
    else (⟨bits1, s.smallest_item, n1⟩, none)

/-- Go `Discard` (dense): same body as `Remove` without the error. -/
def Discard (s : Set) (item : Int) : Set :=
  if Contains s item = false then s
  else
    let bits1 := s.bits.set (calc_idx_of_item s item).toNat false
    let n1 := s.n_items - 1
    if item = s.smallest_item then
      match bits1.findIdx? (fun v => v) with
      | some idx => ⟨bits1.drop idx, item + (idx : Int), n1⟩
      | none => ⟨bits1, s.smallest_item, n1⟩
    else if item = get_upper_value s then
      match find_last_true bits1 with
      | some idx => ⟨bits1.take (idx + 1), s.smallest_item, n1⟩
      | none => ⟨bits1, s.smallest_item, n1⟩
    else ⟨bits1, s.smallest_item, n1⟩

/-- The comparison loop of Go `Equals` (dense): it walks the indices of the
first operand's slice and reads the second operand's slice at the same
index; reading past the second slice's end is a Go panic, embedded as
`none`. -/
def bits_eq_loop : List Bool → List Bool → Option Bool
  | [], _ => some true
  | _ :: _, [] => none
  | v :: ss, w :: ts => if (w == v) = false then some false else bits_eq_loop ss ts

/-- Go `Equals` (dense): `Len`, then `smallest_item`, then the element
loop. -/
def Equals (s t : Set) : Option Bool :=
  if (Len s == Len t) = false then some false
  else if (s.smallest_item == t.smallest_item) = false then some false
  else bits_eq_loop s.bits t.bits

/-- Modelled from the spec: the dense `Pop` is not among the dense source
files under `src/` (only the sparse `Pop` is).  Per the spec it fails with
`NotFound` when the set is empty and otherwise removes and returns
`smallest_item`, the current minimum. -/
def Pop (s : Set) : Set × Int × Option GoErr :=
  if IsEmpty s then (s, 0, some GoErr.ElementNotFound)
  else (Discard s s.smallest_item, s.smallest_item, none)

/-- The inputs on which the span arithmetic of the dense `NewSet` stays
inside the 64-bit `int`: `max - min` at most `2^63 - 2`, so that
`abs(max-min) + 1` neither overflows nor produces a slice length Go's `make`
rejects. -/
def spanFits (xs : List Int) : Bool :=
  match xs with
  | [] => true
  | d0 :: _ => decide (listMaxGo d0 xs - listMinGo d0 xs ≤ 2 ^ 63 - 2)

end Dense

namespace Sparse

/-- The invariant that the association list embedding of a Go map carries
each key at most once. -/
def NodupKeys (m : List (key × Nat)) : Prop := (m.map Prod.fst).Nodup

/-- The sign of the spec's `Decompose(n)`, written from the spec's words
(`sign = (n >= 0)`) for comparison with the source's
`number_to_bitset_representation`. -/
def keyOf (n : Int) : key := ⟨decide (0 ≤ n), n.natAbs / 64⟩

/-- The bit offset of the spec's `Decompose(n)`, written from the spec's
words (`abs(n) % 64`) for comparison with the source's
`number_to_bitset_representation`. -/
def offOf (n : Int) : Nat := n.natAbs % 64

/-- The word the spec predicts for chunk `kk` of `from_sequence xs`: the OR
of the slot bits of the input values that decompose into that chunk (a
proof-side description, compared against what `NewSet` builds). -/
def chunkWord (xs : List Int) (kk : key) : Nat :=
  match xs with
  | [] => 0
  | x :: rest =>
      if keyOf x = kk then 2 ^ offOf x ||| chunkWord rest kk else chunkWord rest kk

end Sparse

/-! ### Arithmetic facts about the machine-integer embedding -/

theorem wrap64_eq_self {z : Int} (h1 : -(2 ^ 63) ≤ z) (h2 : z < 2 ^ 63) :
    wrap64 z = z := by
  unfold wrap64
  rw [Int.emod_eq_of_lt (by omega) (by omega)]
  omega

theorem toUInt64Go_eq_toNat {z : Int} (h1 : 0 ≤ z) (h2 : z < 2 ^ 64) :
    toUInt64Go z = z.toNat := by
  unfold toUInt64Go
  rw [Int.emod_eq_of_lt h1 h2]

theorem wrap64_neg_wrap64 (z : Int) : wrap64 (-(wrap64 z)) = wrap64 (-z) := by
  unfold wrap64
  omega

/-! ### The trailing-zero loop and the slot-extraction loop -/

theorem tzLoop_spec : ∀ (fuel u : Nat), u ≠ 0 → u < 2 ^ fuel →
    u.testBit (tzLoop fuel u) = true ∧ ∀ i, i < tzLoop fuel u → u.testBit i = false := by
  intro fuel
  induction fuel with
  | zero =>
    intro u h0 hlt
    exact absurd (Nat.lt_one_iff.mp hlt) h0
  | succ f ih =>
    intro u h0 hlt
    by_cases hodd : u % 2 = 1
    · refine ⟨by simp [tzLoop, hodd], ?_⟩
      intro i hi
      simp [tzLoop, hodd] at hi
    · have heven : u % 2 = 0 := by omega
      have hu2 : u / 2 ≠ 0 := by omega
      have hlt2 : u / 2 < 2 ^ f := by
        rw [pow_succ] at hlt; omega
      obtain ⟨htb, hbelow⟩ := ih (u / 2) hu2 hlt2
      have htz : tzLoop (f + 1) u = 1 + tzLoop f (u / 2) := by simp [tzLoop, hodd]
      refine ⟨?_, ?_⟩
      · rw [htz, Nat.add_comm, Nat.testBit_add_one]
        exact htb
      · intro i hi
        rw [htz] at hi
        cases i with
        | zero => simp [Nat.testBit_zero, heven]
        | succ j =>
          rw [Nat.testBit_add_one]
          exact hbelow j (by omega)

theorem tz64_testBit {u : Nat} (h0 : u ≠ 0) (hu : u < 2 ^ 64) :
    u.testBit (tz64 u) = true :=
  (tzLoop_spec 64 u h0 hu).1

theorem tz64_below {u : Nat} (h0 : u ≠ 0) (hu : u < 2 ^ 64) :
    ∀ i, i < tz64 u → u.testBit i = false :=
  (tzLoop_spec 64 u h0 hu).2

theorem tz64_lt {u : Nat} (h0 : u ≠ 0) (hu : u < 2 ^ 64) : tz64 u < 64 := by
  by_contra h
  have hlt : u < 2 ^ tz64 u :=
    lt_of_lt_of_le hu (Nat.pow_le_pow_right (by norm_num) (by omega))
  have := Nat.testBit_lt_two_pow hlt
  rw [tz64_testBit h0 hu] at this
  exact absurd this (by simp)

theorem testBit_compl64 {t : Nat} (ht : t < 64) (i : Nat) :
    (2 ^ 64 - 1 - (1 <<< t) % 2 ^ 64).testBit i
      = (decide (i < 64) && !(decide (t = i))) := by
  have hshift : (1 <<< t) % 2 ^ 64 = 2 ^ t := by
    rw [Nat.shiftLeft_eq, one_mul]
    exact Nat.mod_eq_of_lt (Nat.pow_lt_pow_right one_lt_two ht)
  rw [hshift]
  have hsub : 2 ^ 64 - 1 - 2 ^ t = 2 ^ 64 - (2 ^ t + 1) := by omega
  rw [hsub, Nat.testBit_two_pow_sub_succ (Nat.pow_lt_pow_right one_lt_two ht)]
  rw [Nat.testBit_two_pow]

namespace Sparse

theorem slots_loop_spec : ∀ (fuel L u : Nat), u < 2 ^ 64 →
    (∀ i, u.testBit i = true → L ≤ i) → 64 ≤ L + fuel →
    (∀ i, i ∈ slots_loop fuel u ↔ u.testBit i = true) ∧
      (slots_loop fuel u).Pairwise (· < ·) := by
  intro fuel
  induction fuel with
  | zero =>
    intro L u hu hL hfuel
    have hz : ∀ i, u.testBit i = false := by
      intro i
      by_cases hi : u.testBit i = true
      · have h2 : u < 2 ^ i :=
          lt_of_lt_of_le hu (Nat.pow_le_pow_right (by norm_num) (by
            have := hL i hi; omega))
        have := Nat.testBit_lt_two_pow h2
        rw [hi] at this
        exact absurd this (by simp)
      · simpa using hi
    refine ⟨?_, by simp [slots_loop]⟩
    intro i
    simp [slots_loop, hz i]
  | succ f ih =>
    intro L u hu hL hfuel
    by_cases h0 : u = 0
    · subst h0
      refine ⟨?_, by simp [slots_loop]⟩
      intro i
      simp [slots_loop]
    · have htb : u.testBit (tz64 u) = true := tz64_testBit h0 hu
      have hbelow := tz64_below h0 hu
      have htlt : tz64 u < 64 := tz64_lt h0 hu
      have hLt : L ≤ tz64 u := hL (tz64 u) htb
      have hstep : slots_loop (f + 1) u
          = tz64 u :: slots_loop f (u &&& (2 ^ 64 - 1 - (1 <<< tz64 u) % 2 ^ 64)) := by
        simp [slots_loop, h0]
      have hu2bit : ∀ i, (u &&& (2 ^ 64 - 1 - (1 <<< tz64 u) % 2 ^ 64)).testBit i
          = (u.testBit i && (decide (i < 64) && !decide (tz64 u = i))) := by
        intro i
        rw [Nat.testBit_and, testBit_compl64 htlt]
      have hu2lt : (u &&& (2 ^ 64 - 1 - (1 <<< tz64 u) % 2 ^ 64)) < 2 ^ 64 :=
        lt_of_le_of_lt Nat.and_le_left hu
      have hu2L : ∀ i, (u &&& (2 ^ 64 - 1 - (1 <<< tz64 u) % 2 ^ 64)).testBit i = true
          → tz64 u + 1 ≤ i := by
        intro i hi
        rw [hu2bit] at hi
        simp only [Bool.and_eq_true, decide_eq_true_eq, Bool.not_eq_true',
          decide_eq_false_iff_not] at hi
        rcases hi with ⟨hbi, _, hne⟩
        by_contra hc
        push_neg at hc
        rcases Nat.lt_or_ge i (tz64 u) with hlt | hge
        · rw [hbelow i hlt] at hbi
          exact absurd hbi (by simp)
        · exact hne (by omega)
      obtain ⟨ihmem, ihpw⟩ := ih (tz64 u + 1) _ hu2lt hu2L (by omega)
      constructor
      · intro i
        rw [hstep]
        simp only [List.mem_cons, ihmem]
        constructor
        · rintro (rfl | hmem)
          · exact htb
          · rw [hu2bit] at hmem
            exact (Bool.and_elim_left hmem)
        · intro hbi
          have hi64 : i < 64 := by
            by_contra hc
            have h2 : u < 2 ^ i :=
              lt_of_lt_of_le hu (Nat.pow_le_pow_right (by norm_num) (by omega))
            have := Nat.testBit_lt_two_pow h2
            rw [hbi] at this
            exact absurd this (by simp)
          by_cases heq : tz64 u = i
          · exact Or.inl heq.symm
          · refine Or.inr ?_
            rw [hu2bit, hbi]
            simp [hi64, heq]
      · rw [hstep]
        refine List.Pairwise.cons ?_ ihpw
        intro b hb
        have := hu2L b ((ihmem b).mp hb)
        omega

theorem slots_from_uint64_spec {u : Nat} (h0 : u ≠ 0) (hu : u < 2 ^ 64) :
    (∀ i, i ∈ slots_from_uint64 u ↔ u.testBit i = true) ∧
      (slots_from_uint64 u).Pairwise (· < ·) := by
  unfold slots_from_uint64
  rw [if_neg h0]
  exact slots_loop_spec 64 0 u hu (fun i _ => Nat.zero_le i) (by omega)

end Sparse

/-! ### The association-list embedding of the Go map -/

namespace Sparse

theorem mapFind_mapInsert (m : List (key × Nat)) (k k' : key) (v : Nat) :
    mapFind (mapInsert m k v) k' = if k = k' then some v else mapFind m k' := by
  induction m with
  | nil => simp [mapInsert, mapFind]
  | cons p rest ih =>
    obtain ⟨k0, v0⟩ := p
    simp only [mapInsert]
    by_cases h : k0 = k
    · subst h
      simp only [if_pos rfl, mapFind]
      by_cases h2 : k0 = k'
      · simp [h2]
      · simp [h2]
    · simp only [if_neg h, mapFind]
      by_cases h2 : k0 = k'
      · subst h2
        have h3 : ¬(k = k0) := fun hh => h hh.symm
        simp [h3]
      · rw [if_neg h2, if_neg h2, ih]

theorem mapFind_eq_none_iff (m : List (key × Nat)) (k : key) :
    mapFind m k = none ↔ k ∉ m.map Prod.fst := by
  induction m with
  | nil => simp [mapFind]
  | cons p rest ih =>
    obtain ⟨k0, v0⟩ := p
    rw [mapFind]
    by_cases h : k0 = k
    · subst h
      simp
    · rw [if_neg h, ih]
      simp only [List.map_cons, List.mem_cons]
      constructor
      · intro hn hc
        rcases hc with hc | hc
        · exact h hc.symm
        · exact hn hc
      · intro hn hc
        exact hn (Or.inr hc)

theorem mapFind_some_mem {m : List (key × Nat)} {k : key} {v : Nat}
    (h : mapFind m k = some v) : (k, v) ∈ m := by
  induction m with
  | nil => simp [mapFind] at h
  | cons p rest ih =>
    obtain ⟨k0, v0⟩ := p
    by_cases h0 : k0 = k
    · subst h0
      rw [mapFind, if_pos rfl] at h
      obtain rfl : v0 = v := by injection h
      exact List.mem_cons_self _ _
    · rw [mapFind, if_neg h0] at h
      exact List.mem_cons_of_mem _ (ih h)

theorem mem_mapFind {m : List (key × Nat)} {k : key} {v : Nat}
    (hn : NodupKeys m) (h : (k, v) ∈ m) : mapFind m k = some v := by
  induction m with
  | nil => simp at h
  | cons p rest ih =>
    obtain ⟨k0, v0⟩ := p
    rcases List.mem_cons.mp h with heq | hmem
    · obtain ⟨rfl, rfl⟩ := Prod.mk.injEq .. ▸ heq
      · simp [mapFind]
    · have hk : k0 ≠ k := by
        rintro rfl
        have : k0 ∈ rest.map Prod.fst := List.mem_map.mpr ⟨(k0, v), hmem, rfl⟩
        exact (List.nodup_cons.mp hn).1 this
      rw [mapFind, if_neg hk]
      exact ih (List.nodup_cons.mp hn).2 hmem

theorem NodupKeys_nil : NodupKeys [] := List.nodup_nil

theorem NodupKeys_mapInsert {m : List (key × Nat)} (k : key) (v : Nat)
    (h : NodupKeys m) : NodupKeys (mapInsert m k v) := by
  induction m with
  | nil => simp [mapInsert, NodupKeys]
  | cons p rest ih =>
    obtain ⟨k0, v0⟩ := p
    unfold NodupKeys at h ⊢
    simp only [mapInsert]
    by_cases h0 : k0 = k
    · subst h0
      simpa using h
    · rw [if_neg h0]
      simp only [List.map_cons, List.nodup_cons] at h ⊢
      refine ⟨?_, ih h.2⟩
      intro hc
      rcases List.mem_map.mp hc with ⟨q, hq, hfst⟩
      -- q is an entry of mapInsert rest k v with first component k0
      by_cases hqk : q.1 = k
      · exact h0 (hfst ▸ hqk.symm ▸ rfl)
      · -- q must already be an entry of rest
        have : mapFind (mapInsert rest k v) q.1 = some q.2 := by
          have hnodup : NodupKeys (mapInsert rest k v) := ih h.2
          exact mem_mapFind hnodup hq
        rw [mapFind_mapInsert, if_neg (fun hh => hqk hh.symm)] at this
        have hmem : (q.1, q.2) ∈ rest := mapFind_some_mem this
        have : q.1 ∈ rest.map Prod.fst := List.mem_map.mpr ⟨(q.1, q.2), hmem, rfl⟩
        rw [hfst] at this
        exact h.1 this

theorem length_mapInsert (m : List (key × Nat)) (k : key) (v : Nat) :
    (mapInsert m k v).length
      = if (mapFind m k).isSome then m.length else m.length + 1 := by
  induction m with
  | nil => simp [mapInsert, mapFind]
  | cons p rest ih =>
    obtain ⟨k0, v0⟩ := p
    simp only [mapInsert, mapFind]
    by_cases h : k0 = k
    · simp [h]
    · simp only [if_neg h, List.length_cons, ih]
      by_cases h2 : (mapFind rest k).isSome
      · simp [h2]
      · simp [h2]

theorem foldl_add_init {α : Type} (f : α → Nat) :
    ∀ (l : List α) (a : Nat), l.foldl (fun acc p => acc + f p) a = a + (l.map f).sum := by
  intro l
  induction l with
  | nil => intro a; simp
  | cons x rest ih =>
    intro a
    simp only [List.foldl_cons, List.map_cons, List.sum_cons, ih]
    omega

theorem Len_eq_sum (s : Set) : Len s = (s.data.map (fun p => onesCount64 p.2)).sum := by
  unfold Len
  rw [foldl_add_init]
  omega

theorem mapFind_ext_perm :
    ∀ (m1 m2 : List (key × Nat)), NodupKeys m1 → NodupKeys m2 →
    (∀ k, mapFind m1 k = mapFind m2 k) → m1.Perm m2 := by
  intro m1
  induction m1 with
  | nil =>
    intro m2 _ _ h
    cases m2 with
    | nil => exact List.Perm.nil
    | cons p rest =>
      obtain ⟨k0, v0⟩ := p
      have := h k0
      rw [mapFind, mapFind, if_pos rfl] at this
      exact absurd this (by simp)
  | cons p rest ih =>
    intro m2 h1 h2 h
    obtain ⟨k0, v0⟩ := p
    have hf : mapFind m2 k0 = some v0 := by
      have hh := h k0
      rw [mapFind, if_pos rfl] at hh
      exact hh.symm
    have hmem : (k0, v0) ∈ m2 := mapFind_some_mem hf
    rcases List.append_of_mem hmem with ⟨l1, l2, rfl⟩
    have hperm2 : (l1 ++ (k0, v0) :: l2).Perm ((k0, v0) :: (l1 ++ l2)) :=
      List.perm_middle
    have hkeysub : ((l1 ++ l2).map Prod.fst).Nodup ∧ k0 ∉ (l1 ++ l2).map Prod.fst := by
      have hkp : ((l1 ++ (k0, v0) :: l2).map Prod.fst).Perm
          (((k0, v0) :: (l1 ++ l2)).map Prod.fst) := hperm2.map Prod.fst
      have hnd : (((k0, v0) :: (l1 ++ l2)).map Prod.fst).Nodup := hkp.nodup_iff.mp h2
      rw [List.map_cons, List.nodup_cons] at hnd
      exact ⟨hnd.2, hnd.1⟩
    have hnt : NodupKeys (l1 ++ l2) := hkeysub.1
    have hrest : NodupKeys rest := (List.nodup_cons.mp h1).2
    have hk0rest : k0 ∉ rest.map Prod.fst := (List.nodup_cons.mp h1).1
    have hfind : ∀ k, mapFind rest k = mapFind (l1 ++ l2) k := by
      intro k
      by_cases hk : k = k0
      · subst hk
        rw [(mapFind_eq_none_iff rest k).mpr hk0rest,
          (mapFind_eq_none_iff (l1 ++ l2) k).mpr hkeysub.2]
      · have hstep := h k
        rw [mapFind, if_neg (fun hh => hk hh.symm)] at hstep
        rw [hstep]
        -- mapFind (l1 ++ (k0,v0) :: l2) k = mapFind ((k0,v0) :: (l1 ++ l2)) k for k ≠ k0
        rcases hcase : mapFind (l1 ++ (k0, v0) :: l2) k with _ | w
        · rw [mapFind_eq_none_iff] at hcase
          rw [(mapFind_eq_none_iff (l1 ++ l2) k).mpr ?_]
          intro hc
          apply hcase
          rcases List.mem_map.mp hc with ⟨q, hq, hfst⟩
          rcases List.mem_append.mp hq with hql | hqr
          · exact List.mem_map.mpr ⟨q, List.mem_append.mpr (Or.inl hql), hfst⟩
          · exact List.mem_map.mpr
              ⟨q, List.mem_append.mpr (Or.inr (List.mem_cons_of_mem _ hqr)), hfst⟩
        · have hqmem : (k, w) ∈ l1 ++ (k0, v0) :: l2 := mapFind_some_mem hcase
          have hqmem2 : (k, w) ∈ l1 ++ l2 := by
            rcases List.mem_append.mp hqmem with hql | hqr
            · exact List.mem_append.mpr (Or.inl hql)
            · rcases List.mem_cons.mp hqr with heq | hqr2
              · exact absurd (congrArg Prod.fst heq) (by simpa using hk)
              · exact List.mem_append.mpr (Or.inr hqr2)
          exact (mem_mapFind hnt hqmem2).symm
    have hpr : rest.Perm (l1 ++ l2) := ih (l1 ++ l2) hrest hnt hfind
    exact ((hpr.cons ((k0, v0))).trans hperm2.symm)

end Sparse

/-! ### The sparse decomposition and its reconstruction -/

namespace Sparse

theorem shiftLeft_mod_eq_pow {r : Nat} (hr : r < 64) : (1 <<< r) % 2 ^ 64 = 2 ^ r := by
  rw [Nat.shiftLeft_eq, one_mul]
  exact Nat.mod_eq_of_lt (Nat.pow_lt_pow_right one_lt_two hr)

theorem rep_spec {n : Int} (h : intInRange n) :
    number_to_bitset_representation n
      = (decide (0 ≤ n), n.natAbs / 64, 2 ^ (n.natAbs % 64)) := by
  obtain ⟨h1, h2⟩ := h
  by_cases hmin : n = -(2 ^ 63)
  · subst hmin
    decide
  · unfold number_to_bitset_representation
    by_cases hpos : 0 ≤ n
    · rw [if_pos hpos]
      simp only [Prod.mk.injEq]
      refine ⟨by simp [hpos], ?_, ?_⟩
      · rw [toUInt64Go_eq_toNat hpos (by omega)]
        omega
      · by_cases hm : n % 64 = 0
        · rw [if_pos hm]
          have hz : n.natAbs % 64 = 0 := by omega
          rw [hz]
          simp
        · rw [if_neg hm]
          unfold two_to_power_n_minus_1
          have hr : (n % 64).toNat = n.natAbs % 64 := by omega
          rw [hr, shiftLeft_mod_eq_pow (by omega)]
    · rw [if_neg hpos]
      push_neg at hpos
      have hw : wrap64 (-n) = -n := wrap64_eq_self (by omega) (by omega)
      rw [hw]
      simp only [Prod.mk.injEq]
      refine ⟨by simp [not_le.mpr hpos], ?_, ?_⟩
      · rw [toUInt64Go_eq_toNat (by omega) (by omega)]
        omega
      · by_cases hm : (-n) % 64 = 0
        · rw [if_pos hm]
          have hz : n.natAbs % 64 = 0 := by omega
          rw [hz]
          simp
        · rw [if_neg hm]
          unfold two_to_power_n_minus_1
          have hr : ((-n) % 64).toNat = n.natAbs % 64 := by omega
          rw [hr, shiftLeft_mod_eq_pow (by omega)]

theorem rep_key {n : Int} (h : intInRange n) :
    (⟨(number_to_bitset_representation n).1, (number_to_bitset_representation n).2.1⟩ : key)
      = keyOf n := by
  rw [rep_spec h]
  rfl

theorem rep_slot {n : Int} (h : intInRange n) :
    (number_to_bitset_representation n).2.2 = 2 ^ offOf n := by
  rw [rep_spec h]
  rfl

theorem offOf_lt (n : Int) : offOf n < 64 := Nat.mod_lt _ (by norm_num)

theorem rep_slot_pos (n : Int) :
    ∃ r, r < 64 ∧ (number_to_bitset_representation n).2.2 = 2 ^ r := by
  unfold number_to_bitset_representation
  by_cases hpos : 0 ≤ n
  · rw [if_pos hpos]
    by_cases hm : n % 64 = 0
    · exact ⟨0, by omega, by simp [hm]⟩
    · refine ⟨(n % 64).toNat, by omega, ?_⟩
      simp only [if_neg hm]
      unfold two_to_power_n_minus_1
      rw [shiftLeft_mod_eq_pow (by omega)]
  · rw [if_neg hpos]
    by_cases hm : wrap64 (-n) % 64 = 0
    · exact ⟨0, by omega, by simp [hm]⟩
    · refine ⟨(wrap64 (-n) % 64).toNat, by omega, ?_⟩
      simp only [if_neg hm]
      unfold two_to_power_n_minus_1
      rw [shiftLeft_mod_eq_pow (by omega)]

theorem int_of_uint64_small {u : Nat} (h : u < 2 ^ 63) : int_of_uint64 u = u := by
  unfold int_of_uint64
  rw [if_pos h]

theorem slice_item_round {n : Int} (h : intInRange n) :
    slice_item (keyOf n) (offOf n) = n := by
  obtain ⟨h1, h2⟩ := h
  by_cases hmin : n = -(2 ^ 63)
  · subst hmin
    decide
  · have hmult_small : n.natAbs / 64 < 2 ^ 63 := by omega
    show slice_item ⟨decide (0 ≤ n), n.natAbs / 64⟩ (n.natAbs % 64) = n
    unfold slice_item
    dsimp only
    rw [int_of_uint64_small hmult_small]
    have hinner : wrap64 (64 * ((n.natAbs / 64 : Nat) : Int)) = 64 * ((n.natAbs / 64 : Nat) : Int) :=
      wrap64_eq_self (by omega) (by omega)
    rw [hinner]
    have hval : wrap64 ((64 : Int) * ((n.natAbs / 64 : Nat) : Int) + ((n.natAbs % 64 : Nat) : Int))
        = 64 * ((n.natAbs / 64 : Nat) : Int) + ((n.natAbs % 64 : Nat) : Int) :=
      wrap64_eq_self (by omega) (by omega)
    rw [hval]
    by_cases hpos : 0 ≤ n
    · simp only [decide_eq_true hpos, if_true]
      omega
    · simp only [decide_eq_false (not_le.mp hpos).not_le, Bool.false_eq_true, if_false]
      rw [wrap64_eq_self (by omega) (by omega)]
      omega

end Sparse

/-! ### What the sparse `NewSet` builds -/

namespace Sparse

theorem chunkWord_lt (xs : List Int) (kk : key) : chunkWord xs kk < 2 ^ 64 := by
  induction xs with
  | nil => simp [chunkWord]
  | cons x rest ih =>
    unfold chunkWord
    by_cases h : keyOf x = kk
    · rw [if_pos h]
      exact Nat.or_lt_two_pow (Nat.pow_lt_pow_right one_lt_two (offOf_lt x)) ih
    · rw [if_neg h]
      exact ih

theorem chunkWord_testBit (xs : List Int) (kk : key) (i : Nat) :
    (chunkWord xs kk).testBit i = true ↔ ∃ x ∈ xs, keyOf x = kk ∧ offOf x = i := by
  induction xs with
  | nil => simp [chunkWord]
  | cons x rest ih =>
    unfold chunkWord
    by_cases h : keyOf x = kk
    · rw [if_pos h]
      rw [Nat.testBit_or]
      simp only [Bool.or_eq_true, ih, Nat.testBit_two_pow, List.mem_cons]
      constructor
      · rintro (hoff | ⟨y, hy, hky, hoy⟩)
        · exact ⟨x, Or.inl rfl, h, by simpa using hoff⟩
        · exact ⟨y, Or.inr hy, hky, hoy⟩
      · rintro ⟨y, hy | hy, hky, hoy⟩
        · subst hy
          exact Or.inl (by simpa using hoy)
        · exact Or.inr ⟨y, hy, hky, hoy⟩
    · rw [if_neg h]
      rw [ih]
      constructor
      · rintro ⟨y, hy, hky, hoy⟩
        exact ⟨y, List.mem_cons_of_mem _ hy, hky, hoy⟩
      · rintro ⟨y, hy, hky, hoy⟩
        rcases List.mem_cons.mp hy with rfl | hy2
        · exact absurd hky h
        · exact ⟨y, hy2, hky, hoy⟩

theorem new_step_spec (acc : List (key × Nat)) (x : Int) (hx : intInRange x) :
    new_step acc x
      = match mapFind acc (keyOf x) with
        | some bits => mapInsert acc (keyOf x) (bits ||| 2 ^ offOf x)
        | none => mapInsert acc (keyOf x) (2 ^ offOf x) := by
  unfold new_step
  rw [rep_spec hx]
  rfl

theorem new_step_NodupKeys (acc : List (key × Nat)) (x : Int)
    (h : NodupKeys acc) : NodupKeys (new_step acc x) := by
  unfold new_step
  rcases hf : mapFind acc ⟨(number_to_bitset_representation x).1,
      (number_to_bitset_representation x).2.1⟩ with _ | w
  · simpa [hf] using NodupKeys_mapInsert _ _ h
  · simpa [hf] using NodupKeys_mapInsert _ _ h

theorem new_fold_NodupKeys (xs : List Int) :
    ∀ acc, NodupKeys acc → NodupKeys (xs.foldl new_step acc) := by
  induction xs with
  | nil => intro acc h; simpa using h
  | cons x rest ih =>
    intro acc h
    rw [List.foldl_cons]
    exact ih _ (new_step_NodupKeys acc x h)

theorem chunkWord_nil (kk : key) : chunkWord [] kk = 0 := rfl

theorem chunkWord_cons (x : Int) (rest : List Int) (kk : key) :
    chunkWord (x :: rest) kk
      = if keyOf x = kk then 2 ^ offOf x ||| chunkWord rest kk
        else chunkWord rest kk := rfl

theorem new_fold_find (xs : List Int) :
    ∀ (acc : List (key × Nat)) (kk : key), (∀ x ∈ xs, intInRange x) →
    mapFind (xs.foldl new_step acc) kk
      = match mapFind acc kk with
        | some w0 => some (w0 ||| chunkWord xs kk)
        | none =>
            if ∃ y ∈ xs, keyOf y = kk then some (chunkWord xs kk)
            else none := by
  induction xs with
  | nil =>
    intro acc kk _
    rcases hacc : mapFind acc kk with _ | w0 <;> simp [hacc, chunkWord_nil]
  | cons x rest ih =>
    intro acc kk hr
    have hx : intInRange x := hr x (List.mem_cons_self _ _)
    rw [List.foldl_cons, ih _ kk (fun y hy => hr y (List.mem_cons_of_mem _ hy)),
      new_step_spec acc x hx]
    by_cases hkk : keyOf x = kk
    · subst hkk
      rcases hacc : mapFind acc (keyOf x) with _ | w0
      · simp only [hacc]
        rw [mapFind_mapInsert, if_pos rfl]
        have hex : ∃ y ∈ x :: rest, keyOf y = keyOf x :=
          ⟨x, List.mem_cons_self x rest, rfl⟩
        rw [if_pos hex, chunkWord_cons, if_pos rfl]
      · simp only [hacc]
        rw [mapFind_mapInsert, if_pos rfl, chunkWord_cons, if_pos rfl]
        dsimp only
        rw [Nat.or_assoc]
    · have hstep : ∀ m, mapFind (match mapFind acc (keyOf x) with
          | some bits => mapInsert acc (keyOf x) (bits ||| m)
          | none => mapInsert acc (keyOf x) m) kk = mapFind acc kk := by
        intro m
        rcases hacc2 : mapFind acc (keyOf x) with _ | w1
        · rw [mapFind_mapInsert, if_neg hkk]
        · rw [mapFind_mapInsert, if_neg hkk]
      rw [hstep]
      rcases hacc : mapFind acc kk with _ | w0
      · rw [chunkWord_cons, if_neg hkk]
        by_cases hex : ∃ y ∈ rest, keyOf y = kk
        · rw [if_pos hex, if_pos ?_]
          rcases hex with ⟨y, hy, hky⟩
          exact ⟨y, List.mem_cons_of_mem _ hy, hky⟩
        · rw [if_neg hex, if_neg ?_]
          rintro ⟨y, hy, hky⟩
          rcases List.mem_cons.mp hy with rfl | hy2
          · exact hkk hky
          · exact hex ⟨y, hy2, hky⟩
      · rw [chunkWord_cons, if_neg hkk]

theorem NewSet_NodupKeys (xs : List Int) : NodupKeys (NewSet xs).data :=
  new_fold_NodupKeys xs [] NodupKeys_nil

theorem NewSet_find (xs : List Int) (hr : ∀ x ∈ xs, intInRange x) (kk : key) :
    mapFind (NewSet xs).data kk
      = if ∃ y ∈ xs, keyOf y = kk then some (chunkWord xs kk)
        else none := by
  unfold NewSet
  rw [new_fold_find xs [] kk hr]
  rfl

end Sparse

namespace Sparse

theorem Slice_NewSet_spec (xs : List Int) (hr : ∀ x ∈ xs, intInRange x) :
    (Slice (NewSet xs)).Nodup ∧ ∀ z, z ∈ Slice (NewSet xs) ↔ z ∈ xs := by
  have hnd := NewSet_NodupKeys xs
  have hentry : ∀ p ∈ (NewSet xs).data,
      p.2 = chunkWord xs p.1 ∧ ∃ y ∈ xs, keyOf y = p.1 := by
    intro p hp
    have hfind := mem_mapFind hnd hp
    rw [NewSet_find xs hr p.1] at hfind
    by_cases hex : ∃ y ∈ xs, keyOf y = p.1
    · rw [if_pos hex] at hfind
      exact ⟨(Option.some.inj hfind).symm, hex⟩
    · rw [if_neg hex] at hfind
      exact absurd hfind (by simp)
  have hword : ∀ p ∈ (NewSet xs).data, p.2 ≠ 0 ∧ p.2 < 2 ^ 64 := by
    intro p hp
    obtain ⟨hcw, y, hy, hky⟩ := hentry p hp
    constructor
    · intro h0
      have hbit : (chunkWord xs p.1).testBit (offOf y) = true :=
        (chunkWord_testBit xs p.1 (offOf y)).mpr ⟨y, hy, hky, rfl⟩
      rw [← hcw, h0] at hbit
      simp at hbit
    · rw [hcw]
      exact chunkWord_lt xs p.1
  have hslot : ∀ p ∈ (NewSet xs).data, ∀ v ∈ slots_from_uint64 p.2,
      ∃ x ∈ xs, keyOf x = p.1 ∧ offOf x = v ∧ x = slice_item p.1 v := by
    intro p hp v hv
    obtain ⟨hcw, _⟩ := hentry p hp
    obtain ⟨hw0, hwlt⟩ := hword p hp
    have hmem := ((slots_from_uint64_spec hw0 hwlt).1 v).mp hv
    rw [hcw] at hmem
    obtain ⟨x, hx, hkx, hox⟩ := (chunkWord_testBit xs p.1 v).mp hmem
    refine ⟨x, hx, hkx, hox, ?_⟩
    rw [← hkx, ← hox, slice_item_round (hr x hx)]
  have helem : ∀ p ∈ (NewSet xs).data, ∀ z,
      z ∈ (slots_from_uint64 p.2).map (fun v => slice_item p.1 v) →
      ∃ x ∈ xs, keyOf x = p.1 ∧ x = z := by
    intro p hp z hz
    rcases List.mem_map.mp hz with ⟨v, hv, rfl⟩
    obtain ⟨x, hx, hkx, _, hxz⟩ := hslot p hp v hv
    exact ⟨x, hx, hkx, hxz⟩
  have hmem_iff : ∀ z, z ∈ Slice (NewSet xs) ↔ z ∈ xs := by
    intro z
    unfold Slice
    rw [List.mem_flatMap]
    constructor
    · rintro ⟨p, hp, hz⟩
      obtain ⟨x, hx, _, rfl⟩ := helem p hp z hz
      exact hx
    · intro hz
      have hex : ∃ y ∈ xs, keyOf y = keyOf z := ⟨z, hz, rfl⟩
      have hfind : mapFind (NewSet xs).data (keyOf z)
          = some (chunkWord xs (keyOf z)) := by
        rw [NewSet_find xs hr (keyOf z), if_pos hex]
      have hpmem : (keyOf z, chunkWord xs (keyOf z)) ∈ (NewSet xs).data :=
        mapFind_some_mem hfind
      refine ⟨(keyOf z, chunkWord xs (keyOf z)), hpmem, ?_⟩
      have hbit : (chunkWord xs (keyOf z)).testBit (offOf z) = true :=
        (chunkWord_testBit xs (keyOf z) (offOf z)).mpr ⟨z, hz, rfl, rfl⟩
      have hw0 : chunkWord xs (keyOf z) ≠ 0 := by
        intro h0
        rw [h0] at hbit
        simp at hbit
      have hvmem : offOf z ∈ slots_from_uint64 (chunkWord xs (keyOf z)) :=
        ((slots_from_uint64_spec hw0 (chunkWord_lt xs (keyOf z))).1 (offOf z)).mpr hbit
      exact List.mem_map.mpr ⟨offOf z, hvmem, slice_item_round (hr z hz)⟩
  refine ⟨?_, hmem_iff⟩
  unfold Slice
  rw [List.nodup_flatMap]
  constructor
  · intro p hp
    obtain ⟨hw0, hwlt⟩ := hword p hp
    have hnodup_slots : (slots_from_uint64 p.2).Nodup :=
      ((slots_from_uint64_spec hw0 hwlt).2).imp (fun h => Nat.ne_of_lt h)
    refine List.Nodup.map_on ?_ hnodup_slots
    intro v1 hv1 v2 hv2 heq
    obtain ⟨x1, hx1, hk1, ho1, hz1⟩ := hslot p hp v1 hv1
    obtain ⟨x2, hx2, hk2, ho2, hz2⟩ := hslot p hp v2 hv2
    have hx12 : x1 = x2 := by rw [hz1, hz2, heq]
    rw [← ho1, ← ho2, hx12]
  · have hmap : (List.map Prod.fst (NewSet xs).data).Pairwise (· ≠ ·) := hnd
    have hpwkeys : (NewSet xs).data.Pairwise (fun p q => p.1 ≠ q.1) :=
      List.pairwise_map.mp hmap
    refine List.Pairwise.imp_of_mem ?_ hpwkeys
    intro p q hp hq hne
    intro z hzp hzq
    obtain ⟨x1, hx1, hk1, hxz1⟩ := helem p hp z hzp
    obtain ⟨x2, hx2, hk2, hxz2⟩ := helem q hq z hzq
    exact hne (by rw [← hk1, ← hk2, hxz1, hxz2])

end Sparse

/-! ### Union and Intersection of the sparse sets -/

namespace Sparse

theorem mem_mapInsert {m : List (key × Nat)} {k : key} {v : Nat} {p : key × Nat}
    (h : p ∈ mapInsert m k v) : p = (k, v) ∨ p ∈ m := by
  induction m with
  | nil => simpa [mapInsert] using h
  | cons q rest ih =>
    obtain ⟨k0, v0⟩ := q
    unfold mapInsert at h
    by_cases h0 : k0 = k
    · rw [if_pos h0] at h
      rcases List.mem_cons.mp h with rfl | hm
      · exact Or.inl (by rw [h0])
      · exact Or.inr (List.mem_cons_of_mem _ hm)
    · rw [if_neg h0] at h
      rcases List.mem_cons.mp h with rfl | hm
      · exact Or.inr (List.mem_cons_self _ _)
      · rcases ih hm with hl | hr2
        · exact Or.inl hl
        · exact Or.inr (List.mem_cons_of_mem _ hr2)

theorem NewSet_words (xs : List Int) :
    ∀ p ∈ (NewSet xs).data, p.2 ≠ 0 ∧ p.2 < 2 ^ 64 := by
  suffices h : ∀ (l : List Int) (acc : List (key × Nat)),
      (∀ p ∈ acc, p.2 ≠ 0 ∧ p.2 < 2 ^ 64) →
      ∀ p ∈ l.foldl new_step acc, p.2 ≠ 0 ∧ p.2 < 2 ^ 64 by
    intro p hp
    exact h xs [] (by simp) p hp
  intro l
  induction l with
  | nil => intro acc hacc p hp; exact hacc p hp
  | cons x rest ih =>
    intro acc hacc p hp
    rw [List.foldl_cons] at hp
    refine ih _ ?_ p hp
    intro q hq
    obtain ⟨r, hr, hslot⟩ := rep_slot_pos x
    have hslot_ne : (number_to_bitset_representation x).2.2 ≠ 0 := by
      rw [hslot]
      exact (Nat.pow_pos (by norm_num)).ne'
    have hslot_lt : (number_to_bitset_representation x).2.2 < 2 ^ 64 := by
      rw [hslot]; exact Nat.pow_lt_pow_right one_lt_two hr
    simp only [new_step] at hq
    rcases hf : mapFind acc ⟨(number_to_bitset_representation x).1,
        (number_to_bitset_representation x).2.1⟩ with _ | w
    · rw [hf] at hq
      rcases mem_mapInsert hq with rfl | hm
      · exact ⟨hslot_ne, hslot_lt⟩
      · exact hacc q hm
    · rw [hf] at hq
      rcases mem_mapInsert hq with rfl | hm
      · have hw := hacc _ (mapFind_some_mem hf)
        refine ⟨?_, Nat.or_lt_two_pow hw.2 hslot_lt⟩
        intro h0
        have : w = 0 := by
          have := congrArg (fun n => n.testBit 0) h0
          exact Nat.eq_of_testBit_eq (fun i => by
            have hh := congrArg (fun n => n.testBit i) h0
            simp only [Nat.testBit_or, Nat.zero_testBit] at hh
            simp [Bool.or_eq_false_iff.mp hh |>.1])
        exact hw.1 this
      · exact hacc q hm

theorem union_step_find (acc : List (key × Nat)) (p : key × Nat) (kk : key) :
    mapFind (union_step acc p) kk
      = if p.1 = kk then
          (match mapFind acc p.1 with
           | some w => some (w ||| p.2)
           | none => some p.2)
        else mapFind acc kk := by
  unfold union_step
  rcases hfa : mapFind acc p.1 with _ | w
  · rw [mapFind_mapInsert]
  · rw [mapFind_mapInsert]

theorem union_step_NodupKeys (acc : List (key × Nat)) (p : key × Nat)
    (h : NodupKeys acc) : NodupKeys (union_step acc p) := by
  unfold union_step
  rcases mapFind acc p.1 with _ | w
  · exact NodupKeys_mapInsert _ _ h
  · exact NodupKeys_mapInsert _ _ h

theorem union_fold_NodupKeys (m : List (key × Nat)) :
    ∀ acc, NodupKeys acc → NodupKeys (union_fold m acc) := by
  induction m with
  | nil => intro acc h; simpa [union_fold] using h
  | cons p rest ih =>
    intro acc h
    unfold union_fold at ih ⊢
    rw [List.foldl_cons]
    exact ih _ (union_step_NodupKeys acc p h)

theorem union_fold_find (m : List (key × Nat)) (hm : NodupKeys m) :
    ∀ (acc : List (key × Nat)) (kk : key),
    mapFind (union_fold m acc) kk
      = match mapFind m kk with
        | some w =>
            (match mapFind acc kk with
             | some w0 => some (w0 ||| w)
             | none => some w)
        | none => mapFind acc kk := by
  induction m with
  | nil =>
    intro acc kk
    simp [union_fold, mapFind]
  | cons p rest ih =>
    intro acc kk
    obtain ⟨k0, w0⟩ := p
    have hrest : NodupKeys rest := (List.nodup_cons.mp hm).2
    have hk0 : k0 ∉ rest.map Prod.fst := (List.nodup_cons.mp hm).1
    unfold union_fold at ih ⊢
    rw [List.foldl_cons, ih hrest _ kk]
    by_cases hk : k0 = kk
    · subst hk
      have hnone : mapFind rest k0 = none := (mapFind_eq_none_iff rest k0).mpr hk0
      rw [hnone, union_step_find]
      rw [if_pos rfl]
      rw [mapFind, if_pos rfl]
    · rw [union_step_find, if_neg hk, mapFind, if_neg hk]

theorem Union_NodupKeys {s t : Set} (hs : NodupKeys s.data) (ht : NodupKeys t.data) :
    NodupKeys (Union s t).data := by
  unfold Union Copy
  by_cases hlen : t.data.length < s.data.length
  · rw [if_pos hlen]
    exact union_fold_NodupKeys t.data s.data hs
  · rw [if_neg hlen]
    exact union_fold_NodupKeys s.data t.data ht

theorem Union_find {s t : Set} (hs : NodupKeys s.data) (ht : NodupKeys t.data) (kk : key) :
    mapFind (Union s t).data kk
      = match mapFind s.data kk, mapFind t.data kk with
        | some a, some b => some (a ||| b)
        | some a, none => some a
        | none, some b => some b
        | none, none => none := by
  unfold Union Copy
  by_cases hlen : t.data.length < s.data.length
  · rw [if_pos hlen]
    dsimp only
    rw [union_fold_find t.data ht s.data kk]
    rcases mapFind s.data kk with _ | a <;> rcases mapFind t.data kk with _ | b <;> rfl
  · rw [if_neg hlen]
    dsimp only
    rw [union_fold_find s.data hs t.data kk]
    rcases mapFind s.data kk with _ | a <;> rcases mapFind t.data kk with _ | b <;>
      simp [Nat.lor_comm]

theorem inter_step_find (other acc : List (key × Nat)) (p : key × Nat) (kk : key) :
    mapFind (inter_step other acc p) kk
      = if p.1 = kk then
          (match mapFind other p.1 with
           | some w2 =>
               if p.2 &&& w2 ≠ 0 then some (p.2 &&& w2) else mapFind acc kk
           | none => mapFind acc kk)
        else mapFind acc kk := by
  unfold inter_step
  rcases hfo : mapFind other p.1 with _ | w2
  · by_cases hk : p.1 = kk
    · rw [if_pos hk]
    · rw [if_neg hk]
  · dsimp only
    by_cases hand : p.2 &&& w2 ≠ 0
    · rw [if_pos hand, mapFind_mapInsert]
      by_cases hk : p.1 = kk
      · rw [if_pos hk, if_pos hk, if_pos hand]
      · rw [if_neg hk, if_neg hk]
    · rw [if_neg hand]
      by_cases hk : p.1 = kk
      · rw [if_pos hk, if_neg hand]
      · rw [if_neg hk]

theorem inter_step_NodupKeys (other acc : List (key × Nat)) (p : key × Nat)
    (h : NodupKeys acc) : NodupKeys (inter_step other acc p) := by
  unfold inter_step
  rcases mapFind other p.1 with _ | w2
  · exact h
  · dsimp only
    by_cases hand : p.2 &&& w2 ≠ 0
    · rw [if_pos hand]
      exact NodupKeys_mapInsert _ _ h
    · rw [if_neg hand]
      exact h

theorem inter_fold_aux_find (other : List (key × Nat)) (m : List (key × Nat))
    (hm : NodupKeys m) :
    ∀ (acc : List (key × Nat)) (kk : key),
    mapFind (m.foldl (inter_step other) acc) kk
      = match mapFind m kk with
        | some a =>
            (match mapFind other kk with
             | some b => if a &&& b ≠ 0 then some (a &&& b) else mapFind acc kk
             | none => mapFind acc kk)
        | none => mapFind acc kk := by
  induction m with
  | nil =>
    intro acc kk
    simp [mapFind]
  | cons p rest ih =>
    intro acc kk
    obtain ⟨k0, a0⟩ := p
    have hrest : NodupKeys rest := (List.nodup_cons.mp hm).2
    have hk0 : k0 ∉ rest.map Prod.fst := (List.nodup_cons.mp hm).1
    rw [List.foldl_cons, ih hrest _ kk]
    by_cases hk : k0 = kk
    · subst hk
      have hnone : mapFind rest k0 = none := (mapFind_eq_none_iff rest k0).mpr hk0
      rw [hnone, inter_step_find, if_pos rfl, mapFind, if_pos rfl]
    · rw [inter_step_find, if_neg hk, mapFind, if_neg hk]

theorem inter_fold_NodupKeys (other m : List (key × Nat)) :
    NodupKeys (inter_fold other m) := by
  suffices h : ∀ acc, NodupKeys acc → NodupKeys (m.foldl (inter_step other) acc) from
    h [] NodupKeys_nil
  induction m with
  | nil => intro acc h; simpa using h
  | cons p rest ih =>
    intro acc h
    rw [List.foldl_cons]
    exact ih _ (inter_step_NodupKeys other acc p h)

theorem Intersection_NodupKeys (s t : Set) : NodupKeys (Intersection s t).data := by
  unfold Intersection
  by_cases hlen : s.data.length < t.data.length
  · rw [if_pos hlen]
    exact inter_fold_NodupKeys t.data s.data
  · rw [if_neg hlen]
    exact inter_fold_NodupKeys s.data t.data

theorem Intersection_find {s t : Set} (hs : NodupKeys s.data) (ht : NodupKeys t.data)
    (kk : key) :
    mapFind (Intersection s t).data kk
      = match mapFind s.data kk, mapFind t.data kk with
        | some a, some b => if a &&& b ≠ 0 then some (a &&& b) else none
        | _, _ => none := by
  unfold Intersection inter_fold
  by_cases hlen : s.data.length < t.data.length
  · rw [if_pos hlen]
    dsimp only
    rw [inter_fold_aux_find t.data s.data hs [] kk]
    rcases mapFind s.data kk with _ | a <;> rcases mapFind t.data kk with _ | b <;>
      simp [mapFind]
  · rw [if_neg hlen]
    dsimp only
    rw [inter_fold_aux_find s.data t.data ht [] kk]
    rcases mapFind s.data kk with _ | a <;> rcases mapFind t.data kk with _ | b <;>
      simp [mapFind, Nat.land_comm]

end Sparse

/-! ### `Equals` after a find-preserving permutation, and absorption -/

theorem Nat.land_lor_absorb (a b : Nat) : a &&& (a ||| b) = a := by
  apply Nat.eq_of_testBit_eq
  intro i
  rw [Nat.testBit_and, Nat.testBit_or]
  cases a.testBit i <;> simp

namespace Sparse

theorem Equals_of_find_ext {s t : Set} (hs : NodupKeys s.data) (ht : NodupKeys t.data)
    (hf : ∀ kk, mapFind s.data kk = mapFind t.data kk) : Equals s t = true := by
  have hperm := mapFind_ext_perm s.data t.data hs ht hf
  have hlen : s.data.length = t.data.length := hperm.length_eq
  have hLen : Len s = Len t := by
    rw [Len_eq_sum, Len_eq_sum]
    exact (hperm.map _).sum_eq
  unfold Equals
  rw [if_neg (not_ne_iff.mpr hlen), if_neg (not_ne_iff.mpr hLen), Bool.and_eq_true]
  refine ⟨List.all_eq_true.mpr ?_, List.all_eq_true.mpr ?_⟩
  · intro p hp
    have hfp := mem_mapFind hs hp
    rw [hf p.1] at hfp
    rw [hfp]
    simp
  · intro p hp
    have hfp := mem_mapFind ht hp
    rw [← hf p.1] at hfp
    rw [hfp]
    rfl

theorem Intersection_Union_absorb_find (xs ys : List Int) (kk : key) :
    mapFind (Intersection (NewSet xs) (Union (NewSet xs) (NewSet ys))).data kk
      = mapFind (NewSet xs).data kk := by
  have hA := NewSet_NodupKeys xs
  have hB := NewSet_NodupKeys ys
  have hU := Union_NodupKeys hA hB
  rw [Intersection_find hA hU kk, Union_find hA hB kk]
  rcases hfa : mapFind (NewSet xs).data kk with _ | a
  · rfl
  · have ha0 : a ≠ 0 := (NewSet_words xs _ (mapFind_some_mem hfa)).1
    rcases hfb : mapFind (NewSet ys).data kk with _ | b
    · dsimp only
      have hself : a &&& a = a := by
        apply Nat.eq_of_testBit_eq
        intro i
        rw [Nat.testBit_and, Bool.and_self]
      rw [hself, if_pos ha0]
    · dsimp only
      rw [Nat.land_lor_absorb, if_pos ha0]

end Sparse

/-! ### Error behaviour of Remove and Pop -/

namespace Sparse

theorem Remove_err_spec (s : Set) (x : Int) :
    ((Remove s x).2 = some GoErr.ElementNotFound ↔ Contains s x = false)
      ∧ ((Remove s x).2.isSome = true → (Remove s x).1 = s) := by
  unfold Remove Contains
  by_cases hlen : s.data.length = 0
  · rw [if_pos hlen, if_pos hlen]
    simp
  · rw [if_neg hlen, if_neg hlen]
    dsimp only
    rcases hf : mapFind s.data ⟨(number_to_bitset_representation x).1,
        (number_to_bitset_representation x).2.1⟩ with _ | bits
    · simp
    · dsimp only
      by_cases hand : bits &&& (number_to_bitset_representation x).2.2 = 0
      · rw [if_pos hand]
        simp [hand]
      · rw [if_neg hand]
        simp [hand]

theorem Pop_err_spec (s : Set) :
    ((Pop s).2.2 = some GoErr.ElementNotFound ↔ Len s = 0)
      ∧ ((Pop s).2.2.isSome = true → (Pop s).1 = s) := by
  unfold Pop
  by_cases hempty : IsEmpty s = true
  · rw [if_pos hempty]
    have h0 : Len s = 0 := by simpa [IsEmpty] using hempty
    simp [h0]
  · rw [if_neg hempty]
    have hlen : Len s ≠ 0 := by simpa [IsEmpty] using hempty
    rcases hdata : s.data with _ | ⟨⟨k, slots⟩, rest⟩
    · exfalso
      apply hlen
      unfold Len
      rw [hdata]
      rfl
    · dsimp only
      simp [hlen]

theorem mapInsert_ne_nil (m : List (key × Nat)) (k : key) (v : Nat) :
    mapInsert m k v ≠ [] := by
  cases m with
  | nil => simp [mapInsert]
  | cons p rest =>
    obtain ⟨k0, v0⟩ := p
    unfold mapInsert
    by_cases h : k0 = k <;> simp [h]

theorem land_pow_ne_zero {a : Nat} {r : Nat} (h : a.testBit r = true) :
    a &&& 2 ^ r ≠ 0 := by
  intro h0
  have hh := congrArg (fun n => n.testBit r) h0
  simp only [Nat.testBit_and, h, Nat.testBit_two_pow_self, Bool.and_self,
    Nat.zero_testBit] at hh
  exact absurd hh (by simp)

theorem Contains_Add (s : Set) (n : Int) : Contains (Add s n) n = true := by
  obtain ⟨r, hr, hslot⟩ := rep_slot_pos n
  unfold Add Contains
  dsimp only
  rcases hf : mapFind s.data ⟨(number_to_bitset_representation n).1,
      (number_to_bitset_representation n).2.1⟩ with _ | w
  · rw [if_neg (fun h => mapInsert_ne_nil _ _ _ (List.length_eq_zero.mp h))]
    rw [mapFind_mapInsert, if_pos rfl]
    rw [hslot]
    simp [land_pow_ne_zero Nat.testBit_two_pow_self]
  · rw [if_neg (fun h => mapInsert_ne_nil _ _ _ (List.length_eq_zero.mp h))]
    rw [mapFind_mapInsert, if_pos rfl]
    rw [hslot]
    have hbit : (w ||| 2 ^ r).testBit r = true := by
      rw [Nat.testBit_or, Nat.testBit_two_pow_self, Bool.or_true]
    simp [land_pow_ne_zero hbit]

theorem Remove_Add_ok (s : Set) (n : Int) : (Remove (Add s n) n).2 = none := by
  obtain ⟨r, hr, hslot⟩ := rep_slot_pos n
  unfold Add Remove
  dsimp only
  rcases hf : mapFind s.data ⟨(number_to_bitset_representation n).1,
      (number_to_bitset_representation n).2.1⟩ with _ | w
  · rw [if_neg (fun h => mapInsert_ne_nil _ _ _ (List.length_eq_zero.mp h))]
    rw [mapFind_mapInsert, if_pos rfl]
    dsimp only
    rw [hslot]
    rw [if_neg (land_pow_ne_zero Nat.testBit_two_pow_self)]
  · rw [if_neg (fun h => mapInsert_ne_nil _ _ _ (List.length_eq_zero.mp h))]
    rw [mapFind_mapInsert, if_pos rfl]
    dsimp only
    rw [hslot]
    have hbit : (w ||| 2 ^ r).testBit r = true := by
      rw [Nat.testBit_or, Nat.testBit_two_pow_self, Bool.or_true]
    rw [if_neg (land_pow_ne_zero hbit)]

end Sparse

namespace Dense

theorem Remove_err (s : Set) (x : Int) :
    (Remove s x).2
      = if Contains s x = false then some GoErr.ElementNotFound else none := by
  unfold Remove
  by_cases hc : Contains s x = false
  · rw [if_pos hc, if_pos hc]
  · rw [if_neg hc, if_neg hc]
    dsimp only
    split
    · split <;> rfl
    · split
      · split <;> rfl
      · rfl

theorem Remove_notfound_spec (s : Set) (x : Int) :
    ((Remove s x).2 = some GoErr.ElementNotFound ↔ Contains s x = false)
      ∧ ((Remove s x).2.isSome = true → (Remove s x).1 = s) := by
  have herr := Remove_err s x
  constructor
  · rw [herr]
    by_cases hc : Contains s x = false <;> simp [hc]
  · intro hsome
    have hc : Contains s x = false := by
      by_contra hcc
      rw [herr, if_neg hcc] at hsome
      simp at hsome
    unfold Remove
    rw [if_pos hc]

theorem Pop_notfound_spec (s : Set) :
    ((Pop s).2.2 = some GoErr.ElementNotFound ↔ Len s = 0)
      ∧ ((Pop s).2.2.isSome = true → (Pop s).1 = s) := by
  unfold Pop
  by_cases hempty : IsEmpty s = true
  · rw [if_pos hempty]
    have h0 : Len s = 0 := by simpa [IsEmpty] using hempty
    simp [h0]
  · rw [if_neg hempty]
    have hlen : Len s ≠ 0 := by simpa [IsEmpty] using hempty
    simp [hlen]

end Dense

/-! ### The dense construction and its round trip -/

namespace Dense

theorem Equals_rejects (s t : Set)
    (h : Len s ≠ Len t ∨ s.smallest_item ≠ t.smallest_item) :
    Equals s t = some false := by
  unfold Equals
  rcases h with h | h
  · rw [if_pos (beq_eq_false_iff_ne.mpr h)]
  · by_cases hl : (Len s == Len t) = false
    · rw [if_pos hl]
    · rw [if_neg hl, if_pos (beq_eq_false_iff_ne.mpr h)]

theorem listMinGo_cons (d0 x : Int) (rest : List Int) :
    listMinGo d0 (x :: rest) = listMinGo (if x < d0 then x else d0) rest := rfl

theorem listMaxGo_cons (d0 x : Int) (rest : List Int) :
    listMaxGo d0 (x :: rest) = listMaxGo (if d0 < x then x else d0) rest := rfl

theorem listMinGo_spec :
    ∀ (data : List Int) (d0 : Int),
      listMinGo d0 data ≤ d0 ∧ (∀ x ∈ data, listMinGo d0 data ≤ x)
        ∧ (listMinGo d0 data = d0 ∨ listMinGo d0 data ∈ data) := by
  intro data
  induction data with
  | nil => intro d0; exact ⟨le_refl _, by simp, Or.inl rfl⟩
  | cons x rest ih =>
    intro d0
    rw [listMinGo_cons]
    obtain ⟨hle, hall, hmem⟩ := ih (if x < d0 then x else d0)
    have hle0 : (if x < d0 then x else d0) ≤ d0 := by
      split <;> omega
    have hlex : (if x < d0 then x else d0) ≤ x := by
      split <;> omega
    refine ⟨le_trans hle hle0, ?_, ?_⟩
    · intro y hy
      rcases List.mem_cons.mp hy with rfl | hy2
      · exact le_trans hle hlex
      · exact hall y hy2
    · rcases hmem with heq | hmem2
      · by_cases h : x < d0
        · exact Or.inr (by rw [heq, if_pos h]; exact List.mem_cons_self x rest)
        · exact Or.inl (by rw [heq, if_neg h])
      · exact Or.inr (List.mem_cons_of_mem _ hmem2)

theorem listMaxGo_spec :
    ∀ (data : List Int) (d0 : Int),
      d0 ≤ listMaxGo d0 data ∧ (∀ x ∈ data, x ≤ listMaxGo d0 data)
        ∧ (listMaxGo d0 data = d0 ∨ listMaxGo d0 data ∈ data) := by
  intro data
  induction data with
  | nil => intro d0; exact ⟨le_refl _, by simp, Or.inl rfl⟩
  | cons x rest ih =>
    intro d0
    rw [listMaxGo_cons]
    obtain ⟨hle, hall, hmem⟩ := ih (if d0 < x then x else d0)
    have hle0 : d0 ≤ (if d0 < x then x else d0) := by
      split <;> omega
    have hlex : x ≤ (if d0 < x then x else d0) := by
      split <;> omega
    refine ⟨le_trans hle0 hle, ?_, ?_⟩
    · intro y hy
      rcases List.mem_cons.mp hy with rfl | hy2
      · exact le_trans hlex hle
      · exact hall y hy2
    · rcases hmem with heq | hmem2
      · by_cases h : d0 < x
        · exact Or.inr (by rw [heq, if_pos h]; exact List.mem_cons_self x rest)
        · exact Or.inl (by rw [heq, if_neg h])
      · exact Or.inr (List.mem_cons_of_mem _ hmem2)

theorem getD_set_true (bs : List Bool) (j i : Nat) (hj : j < bs.length) :
    (bs.set j true).getD i false = if i = j then true else bs.getD i false := by
  rw [List.getD_eq_getElem?_getD, List.getD_eq_getElem?_getD, List.getElem?_set]
  by_cases h : i = j
  · rw [if_pos h, if_pos h.symm, if_pos (h ▸ hj)]
    rfl
  · rw [if_neg h, if_neg (fun hh => h hh.symm)]

theorem getD_replicate_false (n i : Nat) :
    (List.replicate n false).getD i false = false := by
  rw [List.getD_eq_getElem?_getD, List.getElem?_replicate]
  by_cases h : i < n
  · rw [if_pos h]
    rfl
  · rw [if_neg h]
    rfl

theorem write_bits_spec :
    ∀ (vs : List Int) (bs : List Bool) (mn : Int),
    (∀ v ∈ vs, mn ≤ v ∧ (v - mn) < (bs.length : Int) ∧ v - mn < 2 ^ 63) →
    ∃ bs2, write_bits bs mn vs = some bs2 ∧ bs2.length = bs.length ∧
      ∀ i : Nat, bs2.getD i false
        = (bs.getD i false || decide (∃ v ∈ vs, v - mn = (i : Int))) := by
  intro vs
  induction vs with
  | nil =>
    intro bs mn _
    exact ⟨bs, rfl, rfl, by simp⟩
  | cons v rest ih =>
    intro bs mn hb
    obtain ⟨hv1, hv2, hv3⟩ := hb v (List.mem_cons_self _ _)
    have hwrap : wrap64 (v - mn) = v - mn := wrap64_eq_self (by omega) (by omega)
    have hguard : 0 ≤ wrap64 (v - mn) ∧ (wrap64 (v - mn)).toNat < bs.length := by
      rw [hwrap]
      constructor
      · omega
      · omega
    obtain ⟨bs2, heq, hlen, hchar⟩ :=
      ih (bs.set (wrap64 (v - mn)).toNat true) mn (by
        intro y hy
        obtain ⟨h1, h2, h3⟩ := hb y (List.mem_cons_of_mem _ hy)
        refine ⟨h1, ?_, h3⟩
        rw [List.length_set]
        exact h2)
    refine ⟨bs2, ?_, by rw [hlen, List.length_set], ?_⟩
    · unfold write_bits
      rw [if_pos hguard]
      exact heq
    · intro i
      rw [hchar i, getD_set_true bs _ i hguard.2]
      by_cases hij : i = (wrap64 (v - mn)).toNat
      · rw [if_pos hij]
        have hvi : v - mn = (i : Int) := by
          rw [hij, hwrap]
          omega
        have hex : ∃ y ∈ v :: rest, y - mn = (i : Int) :=
          ⟨v, List.mem_cons_self _ _, hvi⟩
        rw [decide_eq_true hex]
        simp
      · rw [if_neg hij]
        have hne : ¬(v - mn = (i : Int)) := by
          intro hh
          apply hij
          rw [hwrap] at hguard ⊢
          omega
        have : (∃ y ∈ v :: rest, y - mn = (i : Int))
            ↔ (∃ y ∈ rest, y - mn = (i : Int)) := by
          constructor
          · rintro ⟨y, hy, hyi⟩
            rcases List.mem_cons.mp hy with rfl | hy2
            · exact absurd hyi hne
            · exact ⟨y, hy2, hyi⟩
          · rintro ⟨y, hy, hyi⟩
            exact ⟨y, List.mem_cons_of_mem _ hy, hyi⟩
        rw [show decide (∃ y ∈ v :: rest, y - mn = (i : Int))
          = decide (∃ y ∈ rest, y - mn = (i : Int)) from decide_eq_decide.mpr this]

theorem Slice_pairwise (s : Set) : (Slice s).Pairwise (· < ·) := by
  unfold Slice
  exact List.Pairwise.map (fun (i : Nat) => (i : Int) + s.smallest_item)
    (fun a b (hab : a < b) => by
      show (a : Int) + s.smallest_item < (b : Int) + s.smallest_item
      omega)
    (List.Pairwise.filter _ (List.pairwise_lt_range _))

theorem mem_Slice_iff (s : Set) (z : Int) :
    z ∈ Slice s
      ↔ ∃ i : Nat, i < s.bits.length ∧ s.bits.getD i false = true
          ∧ z = (i : Int) + s.smallest_item := by
  unfold Slice
  rw [List.mem_map]
  constructor
  · rintro ⟨i, hi, rfl⟩
    rw [List.mem_filter] at hi
    exact ⟨i, List.mem_range.mp hi.1, by simpa using hi.2, rfl⟩
  · rintro ⟨i, hlen, hbit, rfl⟩
    exact ⟨i, List.mem_filter.mpr ⟨List.mem_range.mpr hlen, by simpa using hbit⟩, rfl⟩

end Dense

namespace Dense

theorem NewSet_roundTrip (xs : List Int) (hspan : spanFits xs = true) :
    ∃ s, NewSet xs = some s ∧ (Slice s).Pairwise (· < ·)
      ∧ ∀ z, z ∈ Slice s ↔ z ∈ xs := by
  cases xs with
  | nil =>
    refine ⟨⟨[], 0, 0⟩, rfl, ?_, ?_⟩
    · unfold Slice
      simp
    · intro z
      unfold Slice
      simp
  | cons d0 tl =>
    obtain ⟨hmn_le_d0, hmn_all, hmn_mem⟩ := listMinGo_spec (d0 :: tl) d0
    obtain ⟨hmx_ge_d0, hmx_all, hmx_mem⟩ := listMaxGo_spec (d0 :: tl) d0
    have hspan2 : listMaxGo d0 (d0 :: tl) - listMinGo d0 (d0 :: tl) ≤ 2 ^ 63 - 2 := by
      unfold spanFits at hspan
      exact of_decide_eq_true hspan
    have hmnmx : listMinGo d0 (d0 :: tl) ≤ listMaxGo d0 (d0 :: tl) :=
      le_trans hmn_le_d0 hmx_ge_d0
    have hmmr : (if listMaxGo d0 (d0 :: tl) = listMinGo d0 (d0 :: tl) then 1
        else wrap64 (absGo (wrap64 (listMaxGo d0 (d0 :: tl) - listMinGo d0 (d0 :: tl))) + 1))
        = listMaxGo d0 (d0 :: tl) - listMinGo d0 (d0 :: tl) + 1 := by
      by_cases he : listMaxGo d0 (d0 :: tl) = listMinGo d0 (d0 :: tl)
      · rw [if_pos he, he]
        omega
      · rw [if_neg he]
        have h1 : wrap64 (listMaxGo d0 (d0 :: tl) - listMinGo d0 (d0 :: tl))
            = listMaxGo d0 (d0 :: tl) - listMinGo d0 (d0 :: tl) :=
          wrap64_eq_self (by omega) (by omega)
        rw [h1]
        unfold absGo
        rw [if_neg (by omega)]
        exact wrap64_eq_self (by omega) (by omega)
    have hpre : ∀ v ∈ d0 :: tl, listMinGo d0 (d0 :: tl) ≤ v
        ∧ (v - listMinGo d0 (d0 :: tl))
            < ((List.replicate (listMaxGo d0 (d0 :: tl) - listMinGo d0 (d0 :: tl) + 1).toNat
                false).length : Int)
        ∧ v - listMinGo d0 (d0 :: tl) < 2 ^ 63 := by
      intro v hv
      have h1 : v ≤ listMaxGo d0 (d0 :: tl) := hmx_all v hv
      have h2 : listMinGo d0 (d0 :: tl) ≤ v := hmn_all v hv
      refine ⟨h2, ?_, by omega⟩
      rw [List.length_replicate]
      omega
    obtain ⟨bs2, hw, hlen, hchar⟩ := write_bits_spec (d0 :: tl) _ (listMinGo d0 (d0 :: tl)) hpre
    have hnew : NewSet (d0 :: tl)
        = some ⟨bs2, listMinGo d0 (d0 :: tl), (((d0 :: tl).dedup.length : Nat) : Int)⟩ := by
      unfold NewSet
      dsimp only
      rw [hmmr, if_pos (by omega : (0 : Int) ≤ listMaxGo d0 (d0 :: tl) - listMinGo d0 (d0 :: tl) + 1)]
      rw [hw]
    refine ⟨_, hnew, Slice_pairwise _, ?_⟩
    intro z
    rw [mem_Slice_iff]
    dsimp only
    constructor
    · rintro ⟨i, hi, hbit, rfl⟩
      rw [hchar i, getD_replicate_false] at hbit
      simp only [Bool.false_or, decide_eq_true_eq] at hbit
      obtain ⟨v, hv, hvi⟩ := hbit
      have hzv : (i : Int) + listMinGo d0 (d0 :: tl) = v := by omega
      rw [hzv]
      exact hv
    · intro hz
      have h2 : listMinGo d0 (d0 :: tl) ≤ z := hmn_all z hz
      have h3 : z ≤ listMaxGo d0 (d0 :: tl) := hmx_all z hz
      refine ⟨(z - listMinGo d0 (d0 :: tl)).toNat, ?_, ?_, by omega⟩
      · rw [hlen, List.length_replicate]
        omega
      · rw [hchar, getD_replicate_false]
        simp only [Bool.false_or, decide_eq_true_eq]
        exact ⟨z, hz, by omega⟩

end Dense

/-! ### The claims -/

/-- C1: the claim states that for every non-empty sparse set, `Pop` returns
an integer that was a member before the call.  The code contradicts it (and
its own doc comment "remove and return an arbitrary item from the set"): on
the set built from `[100]` (stored as chunk `(positive, 1)`, bit 36), `Pop`
succeeds, clears the bit (so `Len` drops from 1 to 0) but returns the raw
trailing-zero offset 36 without reconstructing `sign * (64*chunk_index +
offset)`; 36 was never a member. -/
theorem claim_C1 :
    Sparse.Contains (Sparse.NewSet [100]) 100 = true
    ∧ (Sparse.Pop (Sparse.NewSet [100])).2.2 = none
    ∧ (Sparse.Pop (Sparse.NewSet [100])).2.1 = 36
    ∧ Sparse.Contains (Sparse.NewSet [100]) 36 = false
    ∧ Sparse.Len (Sparse.NewSet [100]) = 1
    ∧ Sparse.Len (Sparse.Pop (Sparse.NewSet [100])).1 = 0 := by decide

/-- C2: the claim states that `Discard` of a non-member is a no-op.  The
code contradicts it (and its own doc comment "If it doesn't exist, it is
ignored"): when the chunk key exists but the bit is not set, `Discard` XORs
the slot in, so discarding 2 from the set `{1}` adds 2: `Contains 2` flips
from false to true and `Len` grows from 1 to 2. -/
theorem claim_C2 :
    Sparse.Contains (Sparse.NewSet [1]) 2 = false
    ∧ Sparse.Len (Sparse.NewSet [1]) = 1
    ∧ Sparse.Contains (Sparse.Discard (Sparse.NewSet [1]) 2) 2 = true
    ∧ Sparse.Contains (Sparse.Discard (Sparse.NewSet [1]) 2) 1 = true
    ∧ Sparse.Len (Sparse.Discard (Sparse.NewSet [1]) 2) = 2 := by decide

/-- C3 (counterexample): the claim says dense `Equals` returns false
whenever the two bit sequences have different lengths, before any element
comparison, and consequently never reads past the end.  Reachable
counterexample: `Add (-3)` on the set built from `[]` yields bits
`[true, false, false]`; compared with the set built from `[-3]` (bits
`[true]`) the two operands have equal `Len` and equal `smallest_item` but
different bit lengths, and `Equals` reads `t.bits[1]` past the end of the
second operand — a Go panic, embedded as `none`, not `some false`. -/
theorem claim_C3_counterexample :
    Dense.NewSet [] = some ⟨[], 0, 0⟩
    ∧ Dense.NewSet [-3] = some ⟨[true], -3, 1⟩
    ∧ Dense.Add ⟨[], 0, 0⟩ (-3) = ⟨[true, false, false], -3, 1⟩
    ∧ Dense.Len ⟨[true, false, false], -3, 1⟩ = Dense.Len ⟨[true], -3, 1⟩
    ∧ (⟨[true, false, false], -3, 1⟩ : Dense.Set).smallest_item
        = (⟨[true], -3, 1⟩ : Dense.Set).smallest_item
    ∧ (⟨[true, false, false], -3, 1⟩ : Dense.Set).bits.length
        ≠ (⟨[true], -3, 1⟩ : Dense.Set).bits.length
    ∧ Dense.Equals ⟨[true, false, false], -3, 1⟩ ⟨[true], -3, 1⟩ = none := by decide

/-- C3 (amended): dense `Equals` rejects the pair (returns false) whenever
the element counts (`Len`) or the `smallest_item` differ, before any
element-by-element comparison; it performs no check on the lengths of the
bit sequences themselves, and when those lengths differ with equal `Len`
and `smallest_item` the element loop can read past the end of the second
operand's sequence. -/
theorem claim_C3 (s t : Dense.Set)
    (h : Dense.Len s ≠ Dense.Len t ∨ s.smallest_item ≠ t.smallest_item) :
    Dense.Equals s t = some false :=
  Dense.Equals_rejects s t h

theorem claim_C3_witness :
    Dense.Equals ⟨[true], 0, 1⟩ ⟨[], 5, 0⟩ = some false :=
  claim_C3 ⟨[true], 0, 1⟩ ⟨[], 5, 0⟩ (Or.inl (by decide))

/-- C4: the claim states invariant I1 — after any `Add`/`Remove`/`Discard`
sequence from `NewSet`, a non-empty dense set has `bits[0] = true` and
`bits[last] = true`.  The code contradicts it (and the doc comment on the
`bits` field, "the start and end of the slice will always be true"): adding
5 to the set built from `[]` takes the grow-right branch with
`upper_bound = -1` and appends six slots, producing bits
`[false, false, false, false, false, true]` — a non-empty set whose first
slot is false. -/
theorem claim_C4 :
    Dense.NewSet [] = some ⟨[], 0, 0⟩
    ∧ Dense.Add ⟨[], 0, 0⟩ 5 = ⟨[false, false, false, false, false, true], 0, 1⟩
    ∧ Dense.Len (Dense.Add ⟨[], 0, 0⟩ 5) ≠ 0
    ∧ (Dense.Add ⟨[], 0, 0⟩ 5).bits.getD 0 true = false := by decide

/-- C5: the claim states that removing the last remaining element degrades
the dense representation to the canonical empty form, equal (via `Equals`)
to `NewSet []`.  The code contradicts it (and the spec's "representation
must degrade to the canonical empty form", and its own fuzz test on
`smallest_item` updates): removing 5 from the set built from `[5]` leaves
bits `[false]` with `smallest_item = 5`; `Equals` against `NewSet [] =
⟨[], 0, 0⟩` returns false because the `smallest_item`s differ, and in the
`smallest_item = 0` case the comparison even reads past the end of the
empty canonical bits (a Go panic, embedded as `none`). -/
theorem claim_C5 :
    Dense.NewSet [5] = some ⟨[true], 5, 1⟩
    ∧ Dense.Remove ⟨[true], 5, 1⟩ 5 = (⟨[false], 5, 0⟩, none)
    ∧ Dense.NewSet [] = some ⟨[], 0, 0⟩
    ∧ Dense.Equals ⟨[false], 5, 0⟩ ⟨[], 0, 0⟩ = some false
    ∧ Dense.NewSet [0] = some ⟨[true], 0, 1⟩
    ∧ Dense.Remove ⟨[true], 0, 1⟩ 0 = (⟨[false], 0, 0⟩, none)
    ∧ Dense.Equals ⟨[false], 0, 0⟩ ⟨[], 0, 0⟩ = none := by decide

/-- C6: for both representations, `Remove` returns `NotFound` exactly when
the element is not a member (and leaves the receiver unchanged when it
errs), and `Pop` returns `NotFound` exactly when the set is empty (the
dense `Pop` is modelled from the spec, as it is not among the dense source
files under `src/`). -/
theorem claim_C6 (sd : Dense.Set) (ss : Sparse.Set) (x : Int) :
    ((Dense.Remove sd x).2 = some GoErr.ElementNotFound ↔ Dense.Contains sd x = false)
    ∧ ((Dense.Remove sd x).2.isSome = true → (Dense.Remove sd x).1 = sd)
    ∧ ((Sparse.Remove ss x).2 = some GoErr.ElementNotFound ↔ Sparse.Contains ss x = false)
    ∧ ((Sparse.Remove ss x).2.isSome = true → (Sparse.Remove ss x).1 = ss)
    ∧ ((Sparse.Pop ss).2.2 = some GoErr.ElementNotFound ↔ Sparse.Len ss = 0)
    ∧ ((Dense.Pop sd).2.2 = some GoErr.ElementNotFound ↔ Dense.Len sd = 0) :=
  ⟨(Dense.Remove_notfound_spec sd x).1, (Dense.Remove_notfound_spec sd x).2,
   (Sparse.Remove_err_spec ss x).1, (Sparse.Remove_err_spec ss x).2,
   (Sparse.Pop_err_spec ss).1, (Dense.Pop_notfound_spec sd).1⟩

theorem claim_C6_witness :
    ((Dense.Remove ⟨[true], 1, 1⟩ 2).2 = some GoErr.ElementNotFound
        ↔ Dense.Contains ⟨[true], 1, 1⟩ 2 = false)
    ∧ ((Dense.Remove ⟨[true], 1, 1⟩ 2).2.isSome = true
        → (Dense.Remove ⟨[true], 1, 1⟩ 2).1 = ⟨[true], 1, 1⟩)
    ∧ ((Sparse.Remove ⟨[(⟨true, 0⟩, 2)]⟩ 2).2 = some GoErr.ElementNotFound
        ↔ Sparse.Contains ⟨[(⟨true, 0⟩, 2)]⟩ 2 = false)
    ∧ ((Sparse.Remove ⟨[(⟨true, 0⟩, 2)]⟩ 2).2.isSome = true
        → (Sparse.Remove ⟨[(⟨true, 0⟩, 2)]⟩ 2).1 = ⟨[(⟨true, 0⟩, 2)]⟩)
    ∧ ((Sparse.Pop ⟨[(⟨true, 0⟩, 2)]⟩).2.2 = some GoErr.ElementNotFound
        ↔ Sparse.Len ⟨[(⟨true, 0⟩, 2)]⟩ = 0)
    ∧ ((Dense.Pop ⟨[true], 1, 1⟩).2.2 = some GoErr.ElementNotFound
        ↔ Dense.Len ⟨[true], 1, 1⟩ = 0) :=
  claim_C6 ⟨[true], 1, 1⟩ ⟨[(⟨true, 0⟩, 2)]⟩ 2

/-- C7 (counterexample): the claim quantifies over every finite list of
integers, but the dense `NewSet` aborts on `[minInt, maxInt]`: both
elements are valid 64-bit integers, yet `max - min` overflows to `-1`, the
slice is allocated with length 2, and the write for `maxInt` indexes
position `-1` — a Go runtime panic, embedded as `none`, so no round trip
exists for this input. -/
theorem claim_C7_counterexample :
    intInRange (-(2 ^ 63)) ∧ intInRange (2 ^ 63 - 1)
    ∧ Dense.NewSet [-(2 ^ 63), 2 ^ 63 - 1] = none := by decide

/-- C7 (amended): for every list `xs` of 64-bit integers whose dense span
`max(xs) - min(xs)` fits in the machine `int` (at most `2^63 - 2`, so the
span arithmetic of the dense `NewSet` does not overflow), the round trip
holds: the dense construction succeeds and its `Slice` is strictly
ascending (hence duplicate-free) with exactly the distinct values of `xs`,
and the sparse `Slice` is duplicate-free with exactly the distinct values
of `xs`. -/
theorem claim_C7 (xs : List Int) (z : Int) (hr : ∀ x ∈ xs, intInRange x)
    (hspan : Dense.spanFits xs = true) :
    (Dense.NewSet xs).isSome = true
    ∧ (Dense.Slice ((Dense.NewSet xs).getD ⟨[], 0, 0⟩)).Pairwise (· < ·)
    ∧ (z ∈ Dense.Slice ((Dense.NewSet xs).getD ⟨[], 0, 0⟩) ↔ z ∈ xs)
    ∧ (Sparse.Slice (Sparse.NewSet xs)).Nodup
    ∧ (z ∈ Sparse.Slice (Sparse.NewSet xs) ↔ z ∈ xs) := by
  obtain ⟨s, hs, hpw, hmem⟩ := Dense.NewSet_roundTrip xs hspan
  obtain ⟨hnd, hmem2⟩ := Sparse.Slice_NewSet_spec xs hr
  rw [hs]
  exact ⟨rfl, hpw, hmem z, hnd, hmem2 z⟩

theorem claim_C7_witness :
    (Dense.NewSet [5, 1, 5, 100]).isSome = true
    ∧ (Dense.Slice ((Dense.NewSet [5, 1, 5, 100]).getD ⟨[], 0, 0⟩)).Pairwise (· < ·)
    ∧ ((5 : Int) ∈ Dense.Slice ((Dense.NewSet [5, 1, 5, 100]).getD ⟨[], 0, 0⟩)
        ↔ (5 : Int) ∈ ([5, 1, 5, 100] : List Int))
    ∧ (Sparse.Slice (Sparse.NewSet [5, 1, 5, 100])).Nodup
    ∧ ((5 : Int) ∈ Sparse.Slice (Sparse.NewSet [5, 1, 5, 100])
        ↔ (5 : Int) ∈ ([5, 1, 5, 100] : List Int)) :=
  claim_C7 [5, 1, 5, 100] 5 (by decide) (by decide)

/-- C8: the implicit phantom-element behaviour exists and is reachable:
removing 100 (the only member of chunk `(positive, 1)`) from the sparse set
built from `[100]` succeeds and leaves the chunk key stored with word zero;
`Slice` then runs `slots_from_uint64 0 = [0]` and emits the chunk base
`64 = +64*1`, although `Contains 64` is false. -/
theorem claim_C8 :
    Sparse.Contains (Sparse.NewSet [100]) 100 = true
    ∧ (Sparse.Remove (Sparse.NewSet [100]) 100).2 = none
    ∧ (Sparse.Remove (Sparse.NewSet [100]) 100).1 = ⟨[(⟨true, 1⟩, 0)]⟩
    ∧ (64 : Int) ∈ Sparse.Slice (Sparse.Remove (Sparse.NewSet [100]) 100).1
    ∧ Sparse.Contains (Sparse.Remove (Sparse.NewSet [100]) 100).1 64 = false := by decide

/-- C9: for every 64-bit integer `n` (the minimum `int` included), the
sparse decomposition returns `is_positive = (n >= 0)`,
`multiplier = abs(n) / 64` and `slot = 2 ^ (abs(n) % 64)` — in particular a
multiple of 64 gets bit position 0 — and the same convention is shared by
insertion, lookup and removal: after `Add s n`, `Contains` finds `n` and
`Remove` succeeds on `n`, for every starting set `s`. -/
theorem claim_C9 (n : Int) (s : Sparse.Set) (h : intInRange n) :
    Sparse.number_to_bitset_representation n
      = (decide (0 ≤ n), n.natAbs / 64, 2 ^ (n.natAbs % 64))
    ∧ Sparse.Contains (Sparse.Add s n) n = true
    ∧ (Sparse.Remove (Sparse.Add s n) n).2 = none :=
  ⟨Sparse.rep_spec h, Sparse.Contains_Add s n, Sparse.Remove_Add_ok s n⟩

theorem claim_C9_witness :
    Sparse.number_to_bitset_representation (-(2 ^ 63))
      = (decide ((0 : Int) ≤ -(2 ^ 63)), (-(2 ^ 63) : Int).natAbs / 64,
          2 ^ ((-(2 ^ 63) : Int).natAbs % 64))
    ∧ Sparse.Contains (Sparse.Add ⟨[]⟩ (-(2 ^ 63))) (-(2 ^ 63)) = true
    ∧ (Sparse.Remove (Sparse.Add ⟨[]⟩ (-(2 ^ 63))) (-(2 ^ 63))).2 = none :=
  claim_C9 (-(2 ^ 63)) ⟨[]⟩ (by decide)

/-- C10: absorption for the sparse chunked set — for every pair of input
lists, `Intersection A (Union A B)` `Equals` `A`, where `A` and `B` are
built with `NewSet`. -/
theorem claim_C10 (xs ys : List Int) :
    Sparse.Equals
      (Sparse.Intersection (Sparse.NewSet xs)
        (Sparse.Union (Sparse.NewSet xs) (Sparse.NewSet ys)))
      (Sparse.NewSet xs) = true := by
  apply Sparse.Equals_of_find_ext
  · exact Sparse.Intersection_NodupKeys _ _
  · exact Sparse.NewSet_NodupKeys xs
  · exact Sparse.Intersection_Union_absorb_find xs ys
